import Mathlib

/-!
Verification of the 64tass language-server indexing core.

This file shallowly embeds the parts of the repository relevant to the
frozen claims: the document indexer (`parseDocument` in the parser module),
the symbol resolver (`findSymbolInfo`, `isParameter` in the symbols module),
the duplicate-label detection of the diagnostics module, the lexical
utilities (`parseLineStructure`, `stripComment`, `stripStrings`,
`tokenizeExpression`, `parseNumericValue`, `formatNumericValue`) and the
constants table (`SCOPE_OPENERS`, `OPCODES`).

Conventions of the embedding:
- JavaScript strings are Lean `String`s; per-character work happens on
  `String.data : List Char`.
- JavaScript regular expressions are transliterated into explicit character
  scanners.  Every scanner carries a comment quoting the regex it embeds and,
  where backtracking could matter, the argument why the scanner is equivalent.
- JavaScript `Map`s are association lists with `Map.set` semantics
  (`mapSet`: replace in place if the key is present, else append), which
  matches insertion-order iteration of JS `Map`.
- The numeric code treats JS `number` as an exact integer (the source only
  ever produces integers there).
- Whitespace (`\s`) is modelled by the ASCII whitespace characters; unicode
  whitespace is not modelled.
- File-system dependent include resolution is abstracted by a
  `resolveInc : String → Option String` parameter (the source gates on
  `fs.existsSync`); no claim depends on it.
-/

/-! ## Character classes -/

/-- JS `\s` restricted to ASCII: space, tab, LF, VT, FF, CR. -/
def isSpaceChar (c : Char) : Bool :=
  c = ' ' || c = '\t' || c = '\n' || c = '\r' || c = Char.ofNat 11 || c = Char.ofNat 12

/-- The class `[a-zA-Z]`. -/
def isAlphaChar (c : Char) : Bool :=
  (('a' : Char) ≤ c && c ≤ ('z' : Char)) || (('A' : Char) ≤ c && c ≤ ('Z' : Char))

/-- The class `[0-9]`. -/
def isDigitChar (c : Char) : Bool :=
  ('0' : Char) ≤ c && c ≤ ('9' : Char)

/-- The class `[a-zA-Z0-9_]` (JS `\w`). -/
def isWordChar (c : Char) : Bool :=
  isAlphaChar c || isDigitChar c || c = '_'

/-- The class `[0-9a-fA-F]`. -/
def isHexChar (c : Char) : Bool :=
  isDigitChar c || (('a' : Char) ≤ c && c ≤ ('f' : Char)) || (('A' : Char) ≤ c && c ≤ ('F' : Char))

/-- The class `[01]`. -/
def isBinChar (c : Char) : Bool :=
  c = '0' || c = '1'

/-- The double-quote character, written via its code point. -/
def quoteD : Char := Char.ofNat 34

/-- The single-quote character, written via its code point. -/
def quoteS : Char := Char.ofNat 39

/-- JS `String.prototype.toLowerCase` restricted to ASCII letters. -/
def toLowerChar (c : Char) : Char :=
  if (('A' : Char) ≤ c && c ≤ ('Z' : Char)) then Char.ofNat (c.toNat + 32) else c

/-- JS `String.prototype.toUpperCase` restricted to ASCII letters. -/
def toUpperChar (c : Char) : Char :=
  if (('a' : Char) ≤ c && c ≤ ('z' : Char)) then Char.ofNat (c.toNat - 32) else c

/-- Lowercase a whole string (`s.toLowerCase()`). -/
def lowerStr (s : String) : String := ⟨s.data.map toLowerChar⟩

/-- Uppercase a whole string (`s.toUpperCase()`). -/
def upperStr (s : String) : String := ⟨s.data.map toUpperChar⟩

/-! ## Small string helpers -/

/-- Split a character list at every occurrence of `sep`; matches JS
`String.prototype.split` for a one-character separator (so the empty input
yields one empty piece). -/
def splitOnCharAux (sep : Char) : List Char → List Char → List (List Char)
  | [], acc => [acc.reverse]
  | c :: rest, acc =>
    if c = sep then acc.reverse :: splitOnCharAux sep rest []
    else splitOnCharAux sep rest (c :: acc)

/-- Split on a separator character, JS `split` semantics. -/
def splitOnChar (sep : Char) (l : List Char) : List (List Char) :=
  splitOnCharAux sep l []

/-- The lines of a document: `text.split('\n')`. -/
def splitLines (l : List Char) : List (List Char) :=
  splitOnChar '\n' l

/-- JS `String.prototype.trim` (ASCII whitespace). -/
def trimChars (l : List Char) : List Char :=
  ((l.dropWhile isSpaceChar).reverse.dropWhile isSpaceChar).reverse

/-- `trim` on strings. -/
def trimStr (s : String) : String := ⟨trimChars s.data⟩

/-- Does `tok` occur at the head of `l`? Returns the remainder after it. -/
def dropTok : List Char → List Char → Option (List Char)
  | [], rest => some rest
  | _ :: _, [] => none
  | t :: ts, c :: cs => if c = t then dropTok ts cs else none

/-- Case-insensitive variant of `dropTok` (the token must be lowercase). -/
def dropTokCi : List Char → List Char → Option (List Char)
  | [], rest => some rest
  | _ :: _, [] => none
  | t :: ts, c :: cs => if toLowerChar c = t then dropTokCi ts cs else none

/-- JS `String.prototype.indexOf` for a needle list: first index at which
`needle` occurs in `hay`, or `none`. -/
def jsIndexOfAux (needle : List Char) : List Char → Nat → Option Nat
  | [], i => if needle = [] then some i else none
  | c :: rest, i =>
    match dropTok needle (c :: rest) with
    | some _ => some i
    | none => jsIndexOfAux needle rest (i + 1)

/-- First occurrence index of `needle` in `hay`. -/
def jsIndexOf (hay needle : List Char) : Option Nat :=
  jsIndexOfAux needle hay 0

/-- Index of the last `'.'` in a string, as used by `lastIndexOf('.')`;
returns the scope path with its last dot-segment removed, or `none` when
there is no dot (the JS code then assigns `null`). -/
def stripLastSeg (s : String) : Option String :=
  let rev := s.data.reverse
  match rev.dropWhile (fun c => !(c = '.')) with
  | [] => none
  | _ :: before => some ⟨before.reverse⟩

/-- Number of `'.'` characters in a string. -/
def dotCount (s : String) : Nat := s.data.count '.'

/-- Join strings with `'.'` separators, the semantics of `Array.join('.')`. -/
def joinDots : List String → String
  | [] => ""
  | [a] => a
  | a :: b :: rest => a ++ "." ++ joinDots (b :: rest)

/-- Does the string start with `'_'`? -/
def startsWithUnderscore (s : String) : Bool :=
  match s.data with
  | [] => false
  | c :: _ => c = '_'

/-! ## Association lists with JS `Map` semantics -/

/-- `Map.set`: replace the value in place when the key is present (keeping
its insertion position), else append the pair at the end. -/
def mapSet {κ α : Type} [DecidableEq κ] : List (κ × α) → κ → α → List (κ × α)
  | [], k, v => [(k, v)]
  | (k', v') :: rest, k, v =>
    if k' = k then (k, v) :: rest else (k', v') :: mapSet rest k v

/-- `Map.get`: first value stored under the key. -/
def mapLookup {κ α : Type} [DecidableEq κ] : List (κ × α) → κ → Option α
  | [], _ => none
  | (k', v') :: rest, k => if k' = k then some v' else mapLookup rest k

/-! ## Constants (constants module)

`SCOPE_OPENERS` maps each scope-creating directive to its primary closer;
this is the table `parseDocument` iterates over.  `OPENER_TO_CLOSERS` lists
every accepted closer spelling and is used by the diagnostics block matching
(not by `parseDocument`). -/

/-- `SCOPE_OPENERS`, in JS object insertion order. -/
def SCOPE_OPENERS : List (String × String) :=
  [(".proc", ".pend"), (".block", ".bend"), (".macro", ".endm"),
   (".function", ".endf"), (".struct", ".ends"), (".union", ".endu"),
   (".namespace", ".endn")]

/-- `OPENER_TO_CLOSERS` restricted to the scope-creating directives (the
full table also covers non-scope block directives used only by diagnostics). -/
def OPENER_TO_CLOSERS_SCOPED : List (String × List String) :=
  [(".proc", [".pend", ".endproc"]), (".block", [".bend", ".endblock"]),
   (".macro", [".endm", ".endmacro"]), (".function", [".endf", ".endfunction"]),
   (".struct", [".ends", ".endstruct"]), (".union", [".endu", ".endunion"]),
   (".namespace", [".endn", ".endnamespace"])]

/-- `OPCODES`: the 6502 opcode set from the constants module (standard and
undocumented opcodes, lowercase). -/
def OPCODES : List String :=
  ["adc", "and", "asl", "bcc", "bcs", "beq", "bit", "bmi", "bne", "bpl",
   "brk", "bvc", "bvs", "clc", "cld", "cli", "clv", "cmp", "cpx", "cpy",
   "dec", "dex", "dey", "eor", "inc", "inx", "iny", "jmp", "jsr", "lda",
   "ldx", "ldy", "lsr", "nop", "ora", "pha", "php", "pla", "plp", "rol",
   "ror", "rti", "rts", "sbc", "sec", "sed", "sei", "sta", "stx", "sty",
   "tax", "tay", "tsx", "txa", "txs", "tya",
   "ane", "arr", "asr", "dcp", "isb", "jam", "lax", "lds", "rla", "rra",
   "sax", "sbx", "sha", "shs", "shx", "shy", "slo", "sre", "ahx", "alr",
   "axs", "dcm", "ins", "isc", "lae", "las", "lxa", "tas", "xaa"]

/-! ## Lexical scanner (utils module)

`parseLineStructure` scans a line once, tracking string-literal state
(both quote characters delimit strings; a doubled delimiter is an escaped
literal delimiter), and cuts the line at the first `;` outside a string. -/

/-- Worker for `parseLineStructure`: the extra fuel argument only serves
termination and is always at least the length of the list; the state `inQ`
is the open string delimiter, if any, and `i` the current index.  Returns
the code portion and the comment column. -/
def parseLineAux : Nat → List Char → Nat → Option Char → (List Char × Option Nat)
  | 0, _, _, _ => ([], none)
  | _ + 1, [], _, _ => ([], none)
  | fuel + 1, c :: rest, i, some q =>
    if c = q then
      match rest with
      | d :: rest2 =>
        if d = q then
          let r := parseLineAux fuel rest2 (i + 2) (some q)
          (c :: d :: r.1, r.2)
        else
          let r := parseLineAux fuel rest (i + 1) none
          (c :: r.1, r.2)
      | [] => ([c], none)
    else
      let r := parseLineAux fuel rest (i + 1) (some q)
      (c :: r.1, r.2)
  | fuel + 1, c :: rest, i, none =>
    if c = quoteD || c = quoteS then
      let r := parseLineAux fuel rest (i + 1) (some c)
      (c :: r.1, r.2)
    else if c = ';' then ([], some i)
    else
      let r := parseLineAux fuel rest (i + 1) none
      (c :: r.1, r.2)

/-- `parseLineStructure(line)`: the code before any comment and the comment
column (`none` when there is no comment). -/
def parseLineStructure (line : List Char) : List Char × Option Nat :=
  parseLineAux line.length line 0 none

/-- `stripComment(line)`. -/
def stripComment (line : List Char) : List Char :=
  (parseLineStructure line).1

/-- Worker for `stripStrings`: replaces string contents (and doubled-quote
escapes) by spaces, keeping the delimiters, preserving length.  The fuel
argument only serves termination. -/
def stripStringsAux : Nat → List Char → Option Char → List Char
  | 0, _, _ => []
  | _ + 1, [], _ => []
  | fuel + 1, c :: rest, some q =>
    if c = q then
      match rest with
      | d :: rest2 =>
        if d = q then ' ' :: ' ' :: stripStringsAux fuel rest2 (some q)
        else c :: stripStringsAux fuel rest none
      | [] => [c]
    else ' ' :: stripStringsAux fuel rest (some q)
  | fuel + 1, c :: rest, none =>
    if c = quoteD || c = quoteS then c :: stripStringsAux fuel rest (some c)
    else c :: stripStringsAux fuel rest none

/-- `stripStrings(line)`. -/
def stripStrings (line : List Char) : List Char :=
  stripStringsAux line.length line none

/-- `extractComment(line)`: text after the first `;` (a plain `indexOf`,
not string-aware, as in the source), trimmed at the end, with one leading
space removed; `none` when there is no `;` or the comment is empty. -/
def extractComment (line : List Char) : Option (List Char) :=
  match jsIndexOf line [';'] with
  | none => none
  | some i =>
    let c0 := (line.drop (i + 1)).reverse.dropWhile isSpaceChar |>.reverse
    let c1 := match c0 with
              | ' ' :: rest => rest
              | other => other
    if c1.length > 0 then some c1 else none

/-- Is the line comment-only (`/^\s*;/`)? -/
def isCommentOnly (l : List Char) : Bool :=
  match l.dropWhile isSpaceChar with
  | [] => false
  | c :: _ => c = ';'

/-- Is the line blank or comment-only (`/^\s*;/` or `/^\s*$/`)? -/
def isBlankOrComment (l : List Char) : Bool :=
  match l.dropWhile isSpaceChar with
  | [] => true
  | c :: _ => c = ';'

/-- Consecutive comment-only lines above `lineNum`, scanning upward;
`getBlockComment` joins their extracted comments top-down. -/
def commentsAbove : List (List Char) → List (List Char)
  | [] => []
  | l :: above =>
    if isCommentOnly l then
      (match extractComment l with
       | some c => [c]
       | none => []) ++ commentsAbove above
    else []

/-- Consecutive comment-only lines below, scanning downward. -/
def commentsBelow : List (List Char) → List (List Char)
  | [] => []
  | l :: below =>
    if isCommentOnly l then
      (match extractComment l with
       | some c => [c]
       | none => []) ++ commentsBelow below
    else []

/-- Join comment lines with the source's `'  \n'` separator. -/
def joinCommentLines (ls : List (List Char)) : String :=
  joinSep ls
where
  joinSep : List (List Char) → String
    | [] => ""
    | [a] => ⟨a⟩
    | a :: b :: rest => (⟨a⟩ : String) ++ "  \n" ++ joinSep (b :: rest)

/-- `getBlockComment(lines, lineNum)`: same-line comment first, else the
consecutive comment block above, else the one below. -/
def getBlockComment (lines : List (List Char)) (lineNum : Nat) : Option String :=
  match (lines.get? lineNum).bind extractComment with
  | some c => some ⟨c⟩
  | none =>
    let above :=
      if lineNum > 0 ∧ ((lines.get? (lineNum - 1)).map isCommentOnly).getD false then
        (commentsAbove ((lines.take lineNum).reverse)).reverse
      else []
    if above.length > 0 then some (joinCommentLines above)
    else
      let below :=
        if lineNum < lines.length - 1 ∧ ((lines.get? (lineNum + 1)).map isCommentOnly).getD false then
          commentsBelow (lines.drop (lineNum + 1))
        else []
      if below.length > 0 then some (joinCommentLines below)
      else none

/-! ## Line matchers (parser module)

Each definition transliterates one of the regular expressions that
`parseDocument` applies to a line.  Backtracking arguments: every name group
is a maximal run of word characters, and the character required after it is
never a word character, so a shorter match can never succeed where the
maximal one fails. -/

/-- Word boundary `\b` after a token that ends in a word character: the next
character must not be a word character (or the input must end). -/
def wordBoundary : List Char → Bool
  | [] => true
  | c :: _ => !(isWordChar c)

/-- Token `tok` present at the current position followed by `\b`; the token
is compared case-insensitively (`tok` itself lowercase). -/
def tokenHere (tok : List Char) (l : List Char) : Bool :=
  match dropTokCi tok l with
  | some rest => wordBoundary rest
  | none => false

/-- The closer test `(?:^|\s)\.pend\b` (case-insensitive): the token occurs
at the start of the line or right after a whitespace character. -/
def closerMatches (tok : List Char) : List Char → Bool
  | [] => tokenHere tok []
  | c :: rest =>
    tokenHere tok (c :: rest) || closerRest tok (c :: rest)
where
  closerRest (tok : List Char) : List Char → Bool
    | [] => false
    | c :: rest => (isSpaceChar c && tokenHere tok rest) || closerRest tok rest

/-- The `.include` matcher `/^\s*\.include\s+["']([^"']+)["']/i`: returns
the quoted path when the line is an include directive. -/
def includeMatch (line : List Char) : Option (List Char) :=
  let l := line.dropWhile isSpaceChar
  match dropTokCi ".include".data l with
  | none => none
  | some r =>
    let ws := r.takeWhile isSpaceChar
    if ws.length = 0 then none
    else
      match r.dropWhile isSpaceChar with
      | c :: r2 =>
        if c = quoteD || c = quoteS then
          let content := r2.takeWhile (fun d => !(d = quoteD) && !(d = quoteS))
          if content.length = 0 then none
          else
            match r2.drop content.length with
            | d :: _ => if d = quoteD || d = quoteS then some content else none
            | [] => none
        else none
      | [] => none

/-- The named-opener matcher
`/^([a-zA-Z][a-zA-Z0-9_]*)\s+\.proc\b\s*(.*)/i` for a given directive
token: returns the label (original case) and the argument text.  The
argument group `(.*)` cannot cross a carriage return (JS `.`), hence the
`takeWhile`. -/
def namedOpenerMatch (tok : List Char) (line : List Char) : Option (List Char × List Char) :=
  match line with
  | [] => none
  | c :: _ =>
    if isAlphaChar c then
      let name := line.takeWhile isWordChar
      let r1 := line.drop name.length
      let sp := r1.takeWhile isSpaceChar
      if sp.length = 0 then none
      else
        match dropTokCi tok (r1.drop sp.length) with
        | none => none
        | some r2 =>
          if wordBoundary r2 then
            let args := (r2.dropWhile isSpaceChar).takeWhile (fun d => !(d = '\r'))
            some (name, args)
          else none
    else none

/-- The anonymous-opener test `/^\s*\.proc\b/i` for a given directive
token. -/
def anonOpenerMatches (tok : List Char) (line : List Char) : Bool :=
  tokenHere tok (line.dropWhile isSpaceChar)

/-- The code-label matcher `/^([a-zA-Z][a-zA-Z0-9_]*)\s*(:)?\s*(;.*)?$/`:
a whole-line match; the comment group `(;.*)` cannot contain a carriage
return (JS `.` does not match it and the `$` anchor then fails). -/
def codeLabelMatch (line : List Char) : Option (List Char) :=
  match line with
  | [] => none
  | c :: _ =>
    if isAlphaChar c then
      let name := line.takeWhile isWordChar
      let r1 := (line.drop name.length).dropWhile isSpaceChar
      let r2 := match r1 with
                | ':' :: t => t
                | other => other
      match r2.dropWhile isSpaceChar with
      | [] => some name
      | ';' :: t => if t.contains '\r' then none else some name
      | _ => none
    else none

/-- The label-plus-opcode matcher `/^([a-zA-Z][a-zA-Z0-9_]*)\s+([a-zA-Z]{3})\b/`:
returns the label and the three-letter mnemonic. -/
def codeLabelOpcodeMatch (line : List Char) : Option (List Char × List Char) :=
  match line with
  | [] => none
  | c :: _ =>
    if isAlphaChar c then
      let name := line.takeWhile isWordChar
      let r1 := line.drop name.length
      let sp := r1.takeWhile isSpaceChar
      if sp.length = 0 then none
      else
        match r1.drop sp.length with
        | a :: b :: d :: rest =>
          if isAlphaChar a && isAlphaChar b && isAlphaChar d && wordBoundary rest then
            some (name, [a, b, d])
          else none
        | _ => none
    else none

/-- The local-symbol matcher `/^(\s*)(_[a-zA-Z0-9_]*)\s*(?::|=|:=|\s|;|$)/`:
returns the leading-whitespace width and the name.  After the maximal name
run the next character must be one of `:`, `=`, `;`, whitespace, or the
line must end (the `:=` alternative is subsumed by `:`). -/
def localSymbolMatch (line : List Char) : Option (Nat × List Char) :=
  let ws := line.takeWhile isSpaceChar
  match line.drop ws.length with
  | '_' :: _ =>
    let name := (line.drop ws.length).takeWhile isWordChar
    match (line.drop ws.length).drop name.length with
    | [] => some (ws.length, name)
    | c :: _ =>
      if c = ':' || c = '=' || c = ';' || isSpaceChar c then some (ws.length, name)
      else none
  | _ => none

/-- Trailing-context test of the anonymous-label matcher: after the run and
its optional colon the regex `\s*(:)?(?:\s|;|$)` must succeed, which (by the
backtracking analysis in the comment of `anonLabelMatch`) reduces to the
remainder being empty, starting with whitespace or `;`, or starting with
`:` that is followed by end, whitespace, or `;`. -/
def anonRestOk (rest : List Char) : Bool :=
  match rest with
  | [] => true
  | c :: rest2 =>
    isSpaceChar c || c = ';' ||
      (c = ':' &&
        (match rest2 with
         | [] => true
         | d :: _ => isSpaceChar d || d = ';'))

/-- The anonymous-label matcher `/^(\s*)([+\-]+)\s*(:)?(?:\s|;|$)/`:
returns the leading-whitespace width and the symbol run.  Backtracking:
the run is a maximal `[+\-]+`; if any whitespace follows it the greedy
`\s*` can always give back all but nothing and let `(?:\s|;|$)` consume the
first whitespace character, so a leading whitespace in the remainder always
yields a match; otherwise only `;`, end of line, or `:` followed by
end/whitespace/`;` do. -/
def anonLabelMatch (line : List Char) : Option (Nat × List Char) :=
  let ws := line.takeWhile isSpaceChar
  let r := line.drop ws.length
  let run := r.takeWhile (fun c => c = '+' || c = '-')
  if run.length = 0 then none
  else if anonRestOk (r.drop run.length) then some (ws.length, run)
  else none

/-- The data-directive words of the data-label matcher. -/
def DATA_LABEL_DIRS : List String :=
  ["byte", "word", "addr", "fill", "text", "ptext", "null"]

/-- Try the directive-word alternation after the dot: the word must match
case-insensitively and be followed by `\b`. -/
def matchDirWord (words : List String) (l : List Char) : Option (List Char) :=
  match words with
  | [] => none
  | w :: rest =>
    match dropTokCi w.data l with
    | some r => if wordBoundary r then some w.data else matchDirWord rest l
    | none => matchDirWord rest l

/-- The data-label matcher
`/^([a-zA-Z][a-zA-Z0-9_]*)\s+\.(byte|word|addr|fill|text|ptext|null)\b/i`:
returns the label name. -/
def dataLabelMatch (line : List Char) : Option (List Char) :=
  match line with
  | [] => none
  | c :: _ =>
    if isAlphaChar c then
      let name := line.takeWhile isWordChar
      let r1 := line.drop name.length
      let sp := r1.takeWhile isSpaceChar
      if sp.length = 0 then none
      else
        match r1.drop sp.length with
        | '.' :: r2 =>
          match matchDirWord DATA_LABEL_DIRS r2 with
          | some _ => some name
          | none => none
        | _ => none
    else none

/-- The macro-call-label matcher
`/^([a-zA-Z][a-zA-Z0-9_]*)\s+\.([a-zA-Z_][a-zA-Z0-9_]*)\b/i`: returns the
label and the called name (both original case). -/
def macroLabelMatch (line : List Char) : Option (List Char × List Char) :=
  match line with
  | [] => none
  | c :: _ =>
    if isAlphaChar c then
      let name := line.takeWhile isWordChar
      let r1 := line.drop name.length
      let sp := r1.takeWhile isSpaceChar
      if sp.length = 0 then none
      else
        match r1.drop sp.length with
        | '.' :: d :: r2 =>
          if isAlphaChar d || d = '_' then
            some (name, d :: r2.takeWhile isWordChar)
          else none
        | _ => none
    else none

/-- The constant-assignment matcher
`/^(\s*)([a-zA-Z_][a-zA-Z0-9_]*)\s*:?=\s*([^;]+)/`: returns the
leading-whitespace width, the name and the raw value group.  The value
group analysis: after `=`, with `s` leading whitespace characters, the
greedy `\s*` backtracks to the largest `k ≤ s` at which a non-`;`
character exists; the group is then the maximal `[^;]*`-run from there and
must be nonempty. -/
def constAssignMatch (line : List Char) : Option (Nat × List Char × List Char) :=
  let ws := line.takeWhile isSpaceChar
  match line.drop ws.length with
  | c :: _ =>
    if isAlphaChar c || c = '_' then
      let name := (line.drop ws.length).takeWhile isWordChar
      let r1 := ((line.drop ws.length).drop name.length).dropWhile isSpaceChar
      let r2 := match r1 with
                | ':' :: '=' :: t => some t
                | '=' :: t => some t
                | _ => none
      match r2 with
      | none => none
      | some t =>
        let s := (t.takeWhile isSpaceChar).length
        if s < t.length then
          -- a character exists at position s
          if (t.drop s).headD ' ' = ';' then
            -- `[^;]+` cannot start at `s`; backtrack into the whitespace
            if s = 0 then none
            else some (ws.length, name, (t.drop (s - 1)).takeWhile (fun d => !(d = ';')))
          else some (ws.length, name, (t.drop s).takeWhile (fun d => !(d = ';')))
        else
          -- the text after `=` is all whitespace
          if s = 0 then none
          else some (ws.length, name, (t.drop (s - 1)).takeWhile (fun d => !(d = ';')))
    else none
  | [] => none

/-- The macro-body sub-label matcher
`/^([a-zA-Z_][a-zA-Z0-9_]*)\s*(?:$|:|=|\.)/`. -/
def subLabelMatch (line : List Char) : Option (List Char) :=
  match line with
  | [] => none
  | c :: _ =>
    if isAlphaChar c || c = '_' then
      let name := line.takeWhile isWordChar
      match (line.drop name.length).dropWhile isSpaceChar with
      | [] => some name
      | d :: _ => if d = ':' || d = '=' || d = '.' then some name else none
    else none

/-! ## Symbol-table schema (types module) -/

/-- A position, `{ line, character }`. -/
structure SrcPos where
  line : Nat
  character : Nat
deriving DecidableEq, Repr

/-- A range; the source's `end` field is called `stopPos` here (`end` is a
Lean keyword). -/
structure SrcRange where
  startPos : SrcPos
  stopPos : SrcPos
deriving DecidableEq, Repr

/-- A one-line range from `startChar` to `stopChar`. -/
def rangeAt (line startChar stopChar : Nat) : SrcRange :=
  ⟨⟨line, startChar⟩, ⟨line, stopChar⟩⟩

/-- `LabelDefinition` from the types module.  Optional JS fields are
`Option`s (absent = `none`); the optional boolean `isAnonymous` is a plain
`Bool` defaulting to `false`, which is observationally the same. -/
structure LabelDefinition where
  name : String
  originalName : String
  uri : String
  range : SrcRange
  scopePath : Option String
  localScope : Option String
  isLocal : Bool
  isAnonymous : Bool := false
  anonymousCount : Option Nat := none
  value : Option String := none
  comment : Option String := none
deriving DecidableEq, Repr

/-- One entry of `scopeAtLine`. -/
structure LineScope where
  scopePath : Option String
  localScope : Option String
deriving DecidableEq, Repr

/-- One frame of the parser's directive scope stack. -/
structure ScopeFrame where
  name : Option String
  directive : String
deriving DecidableEq, Repr

/-- `DocumentIndex` from the types module.  The source field
`labelDefinedByMacro` is named `labelDefinedBy` here. -/
structure DocumentIndex where
  labels : List LabelDefinition
  scopeAtLine : List (Nat × LineScope)
  parametersAtScope : List (String × List String)
  macroSubLabels : List (String × List String)
  labelDefinedBy : List (String × String)
  includes : List String
deriving DecidableEq, Repr

/-- The full mutable state of `parseDocument`'s line loop: the index being
built plus the scope stack, the current local scope and the in-progress
macro capture (`currentMacroCapture` in the source, here `macroCapture`). -/
structure ParseState where
  labels : List LabelDefinition
  scopeAtLine : List (Nat × LineScope)
  parametersAtScope : List (String × List String)
  macroSubLabels : List (String × List String)
  labelDefinedBy : List (String × String)
  includes : List String
  scopeStack : List ScopeFrame
  currentLocalScope : Option String
  macroCapture : Option (String × Nat)
deriving DecidableEq, Repr

/-- The initial parse state. -/
def initState : ParseState :=
  ⟨[], [], [], [], [], [], [], none, none⟩

/-! ## The document indexer (parser module) -/

/-- `normalizeName`: fold to lowercase unless case-sensitive. -/
def normalizeName (cs : Bool) (s : String) : String :=
  if cs then s else lowerStr s

/-- `getCurrentScopePath`: dot-join the names of the named frames, `none`
when no named frame is open. -/
def getCurrentScopePath (stack : List ScopeFrame) : Option String :=
  let named := stack.filterMap (fun f => f.name)
  if named.length > 0 then some (joinDots named) else none

/-- Pop the innermost (last-pushed) frame whose directive is `dir`;
`none` when no frame matches. -/
def popInnermost (dir : String) : List ScopeFrame → Option (List ScopeFrame)
  | [] => none
  | f :: rest =>
    match popInnermost dir rest with
    | some rest' => some (f :: rest')
    | none => if f.directive = dir then some rest else none

/-- Record the scope info for a line (`scopeAtLine.set(lineNum, ...)`). -/
def recordScope (lineNum : Nat) (st : ParseState) : ParseState :=
  let entry := LineScope.mk (getCurrentScopePath st.scopeStack) st.currentLocalScope
  { st with scopeAtLine := mapSet st.scopeAtLine lineNum entry }

/-- The `.include` branch: on a match, the path is resolved through the
abstracted file system (`resolveInc`); an unresolvable target contributes
nothing, as in the source. -/
def includePhase (resolveInc : String → Option String) (line : List Char)
    (st : ParseState) : ParseState :=
  match includeMatch line with
  | some p =>
    match resolveInc ⟨p⟩ with
    | some u => { st with includes := st.includes ++ [u] }
    | none => st
  | none => st

/-- Finalize a macro-body capture: harvest sub-label names from the body
lines and clear the capture. -/
def finalizeMacroCapture (cs : Bool) (lines : List (List Char)) (lineNum : Nat)
    (st : ParseState) : ParseState :=
  match st.macroCapture with
  | none => st
  | some (nm, startLine) =>
    let body := (lines.drop startLine).take (lineNum - startLine)
    let subs := body.filterMap
      (fun ml => (subLabelMatch ml).map (fun n => normalizeName cs ⟨n⟩))
    let st' :=
      if subs.length > 0 then
        { st with macroSubLabels := mapSet st.macroSubLabels nm subs }
      else st
    { st' with macroCapture := none }

/-- One iteration of the scope-closing loop, for the opener/closer pair
`pr` of `SCOPE_OPENERS`: if the primary closer occurs on the line,
finalize a macro capture (for `.macro`) and pop the innermost frame with
that opener; `closedScope` becomes true only when a frame was popped. -/
def closersStep (cs : Bool) (lines : List (List Char)) (lineNum : Nat)
    (lineLower : List Char) (acc : ParseState × Bool) (pr : String × String) :
    ParseState × Bool :=
  if closerMatches pr.2.data lineLower then
    let st := if pr.1 = ".macro" then finalizeMacroCapture cs lines lineNum acc.1 else acc.1
    match popInnermost pr.1 st.scopeStack with
    | some stk => ({ st with scopeStack := stk }, true)
    | none => (st, acc.2)
  else acc

/-- One iteration of the scope-opening loop for the opener `pr.1`: a named
opener records a label, pushes a named frame, parses `.function`/`.macro`
parameters, starts a `.macro` capture and re-records the line's scope; a
bare opener pushes an anonymous frame and re-records. -/
def openersStep (uri : String) (cs : Bool) (lines : List (List Char))
    (lineNum : Nat) (line lineLower : List Char) (st : ParseState)
    (pr : String × String) : ParseState :=
  let opn := pr.1
  match namedOpenerMatch opn.data line with
  | some (nm, args) =>
    let labelName : String := ⟨nm⟩
    let currentPath := getCurrentScopePath st.scopeStack
    let paramsStr := if args.length = 0 then "" else trimStr ⟨stripComment args⟩
    let cmt := getBlockComment lines lineNum
    let st := { st with labels := st.labels ++ [({
        name := normalizeName cs labelName
        originalName := labelName
        uri := uri
        range := rangeAt lineNum 0 nm.length
        scopePath := currentPath
        localScope := none
        isLocal := false
        comment := cmt } : LabelDefinition)] }
    let st := { st with scopeStack :=
        st.scopeStack ++ [ScopeFrame.mk (some (normalizeName cs labelName)) opn] }
    let st :=
      if (opn = ".function" || opn = ".macro") && !(paramsStr = "") then
        let newScopePath :=
          match getCurrentScopePath st.scopeStack with
          | some p => if p = "" then normalizeName cs labelName else p
          | none => normalizeName cs labelName
        let params := ((splitOnChar ',' paramsStr.data).map
            (fun p => normalizeName cs (trimStr ⟨p⟩))).filter (fun p => !(p = ""))
        if params.length > 0 then
          { st with parametersAtScope := mapSet st.parametersAtScope newScopePath params }
        else st
      else st
    let st :=
      if opn = ".macro" then
        { st with macroCapture := some (normalizeName cs labelName, lineNum + 1) }
      else st
    recordScope lineNum st
  | none =>
    if anonOpenerMatches opn.data lineLower then
      recordScope lineNum { st with scopeStack := st.scopeStack ++ [ScopeFrame.mk none opn] }
    else st

/-- The data-label, macro-call-label and constant-assignment branches, in
source order; these are reached only when no earlier branch consumed the
line. -/
def tailPhase (uri : String) (cs : Bool) (lineNum : Nat) (line : List Char)
    (st : ParseState) : ParseState :=
  match dataLabelMatch line with
  | some nm =>
    { st with labels := st.labels ++ [({
        name := normalizeName cs ⟨nm⟩
        originalName := ⟨nm⟩
        uri := uri
        range := rangeAt lineNum 0 nm.length
        scopePath := getCurrentScopePath st.scopeStack
        localScope := none
        isLocal := false } : LabelDefinition)] }
  | none =>
  match macroLabelMatch line with
  | some (nm, called) =>
    let mc := normalizeName cs ⟨called⟩
    if (SCOPE_OPENERS.map Prod.fst).contains ("." ++ mc) then st
    else
      let st := { st with labels := st.labels ++ [({
          name := normalizeName cs ⟨nm⟩
          originalName := ⟨nm⟩
          uri := uri
          range := rangeAt lineNum 0 nm.length
          scopePath := getCurrentScopePath st.scopeStack
          localScope := none
          isLocal := false } : LabelDefinition)] }
      { st with labelDefinedBy := mapSet st.labelDefinedBy (normalizeName cs ⟨nm⟩) mc }
  | none =>
  match constAssignMatch line with
  | some (ws, nm, rawVal) =>
    let isLoc : Bool := match nm with
                        | '_' :: _ => true
                        | _ => false
    let valueT := trimChars rawVal
    { st with labels := st.labels ++ [({
        name := normalizeName cs ⟨nm⟩
        originalName := ⟨nm⟩
        uri := uri
        range := rangeAt lineNum ws (ws + nm.length)
        scopePath := getCurrentScopePath st.scopeStack
        localScope := if isLoc then st.currentLocalScope else none
        isLocal := isLoc
        value := if valueT.length = 0 then none else some ⟨valueT⟩ } : LabelDefinition)] }
  | none => st

/-- The anonymous-label branch; a mixed run records nothing and falls
through to `tailPhase`, exactly as the source's missing `continue` does. -/
def anonPhase (uri : String) (cs : Bool) (lineNum : Nat) (line : List Char)
    (st : ParseState) : ParseState :=
  match anonLabelMatch line with
  | some (ws, run) =>
    let dir := run.headD '+'
    if run.all (fun c => c = dir) then
      { st with labels := st.labels ++ (List.range run.length).map (fun j => ({
          name := ⟨[dir]⟩
          originalName := ⟨run.take (j + 1)⟩
          uri := uri
          range := rangeAt lineNum (ws + j) (ws + j + 1)
          scopePath := getCurrentScopePath st.scopeStack
          localScope := st.currentLocalScope
          isLocal := true
          isAnonymous := true
          anonymousCount := some (j + 1) } : LabelDefinition)) }
    else tailPhase uri cs lineNum line st
  | none => tailPhase uri cs lineNum line st

/-- The local-symbol branch. -/
def localPhase (uri : String) (cs : Bool) (lineNum : Nat) (line : List Char)
    (st : ParseState) : ParseState :=
  match localSymbolMatch line with
  | some (ws, nm) =>
    { st with labels := st.labels ++ [({
        name := normalizeName cs ⟨nm⟩
        originalName := ⟨nm⟩
        uri := uri
        range := rangeAt lineNum ws (ws + nm.length)
        scopePath := getCurrentScopePath st.scopeStack
        localScope := st.currentLocalScope
        isLocal := true } : LabelDefinition)] }
  | none => anonPhase uri cs lineNum line st

/-- Push a code label: reset the current local scope, re-record the line's
scope, and append the definition. -/
def pushCodeLabel (uri : String) (cs : Bool) (lineNum : Nat) (nm : List Char)
    (st : ParseState) : ParseState :=
  let st := { st with currentLocalScope := some (normalizeName cs ⟨nm⟩) }
  let st := recordScope lineNum st
  { st with labels := st.labels ++ [({
      name := normalizeName cs ⟨nm⟩
      originalName := ⟨nm⟩
      uri := uri
      range := rangeAt lineNum 0 nm.length
      scopePath := getCurrentScopePath st.scopeStack
      localScope := none
      isLocal := false } : LabelDefinition)] }

/-- The label-detection chain after the opener loop: code label, code label
with opcode, local symbol, anonymous labels, then the tail branches. -/
def labelPhase (uri : String) (cs : Bool) (lineNum : Nat) (line : List Char)
    (st : ParseState) : ParseState :=
  match codeLabelMatch line with
  | some nm => pushCodeLabel uri cs lineNum nm st
  | none =>
  match codeLabelOpcodeMatch line with
  | some (nm, opc) =>
    if OPCODES.contains (lowerStr ⟨opc⟩) then pushCodeLabel uri cs lineNum nm st
    else localPhase uri cs lineNum line st
  | none => localPhase uri cs lineNum line st

/-- Process one line of the document, mirroring the body of
`parseDocument`'s `for` loop: record the line's scope, skip blank and
comment-only lines, detect includes, run the scope-closing loop (with
`continue` when a frame was popped), the scope-opening loop, and the
label-detection chain. -/
def processLine (uri : String) (cs : Bool) (resolveInc : String → Option String)
    (lines : List (List Char)) (st : ParseState) (lineNum : Nat)
    (line : List Char) : ParseState :=
  let lineLower := line.map toLowerChar
  let st := recordScope lineNum st
  if isBlankOrComment line then st
  else
    let st := includePhase resolveInc line st
    let res := SCOPE_OPENERS.foldl (closersStep cs lines lineNum lineLower) (st, false)
    if res.2 then recordScope lineNum res.1
    else
      let st := SCOPE_OPENERS.foldl (openersStep uri cs lines lineNum line lineLower) res.1
      labelPhase uri cs lineNum line st

/-- Fold `processLine` over the lines, numbering them from `start`. -/
def foldLines (uri : String) (cs : Bool) (resolveInc : String → Option String)
    (allLines : List (List Char)) :
    List (List Char) → Nat → ParseState → ParseState
  | [], _, st => st
  | l :: rest, start, st =>
    foldLines uri cs resolveInc allLines rest (start + 1)
      (processLine uri cs resolveInc allLines st start l)

/-- The full parse state after scanning a document. -/
def parseStateOf (uri : String) (text : String) (cs : Bool)
    (resolveInc : String → Option String) : ParseState :=
  let lines := splitLines text.data
  foldLines uri cs resolveInc lines lines 0 initState

/-- `parseDocument(document, caseSensitive)`: the produced
`DocumentIndex`. -/
def parseDocument (uri : String) (text : String) (cs : Bool)
    (resolveInc : String → Option String) : DocumentIndex :=
  let st := parseStateOf uri text cs resolveInc
  ⟨st.labels, st.scopeAtLine, st.parametersAtScope, st.macroSubLabels,
   st.labelDefinedBy, st.includes⟩

/-- The labels the indexer recorded for a given line. -/
def labelsOnLine (idx : DocumentIndex) (i : Nat) : List LabelDefinition :=
  idx.labels.filter (fun l => l.range.startPos.line = i)

/-! ## The symbol resolver (symbols module) -/

/-- JS `String.prototype.endsWith`. -/
def strEndsWith (s t : String) : Bool :=
  t.data.isSuffixOf s.data

/-- Iterate the documents of the index map in insertion order and, within
each, the labels in order; return the first label satisfying `p`.  This is
the double `for` loop of the resolver. -/
def findInAllDocs (p : LabelDefinition → Bool)
    (dim : List (String × DocumentIndex)) : Option LabelDefinition :=
  dim.findSome? (fun d => d.2.labels.find? p)

/-- The scope context recorded at a line:
`lineScope?.scopePath ?? null` and `lineScope?.localScope ?? null`. -/
def scopeCtxAt (idx : DocumentIndex) (line : Nat) : Option String × Option String :=
  match mapLookup idx.scopeAtLine line with
  | some e => (e.scopePath, e.localScope)
  | none => (none, none)

/-- The dotted-reference predicate: name equals the target leaf and the
scope path equals the target path or ends with `"." ++ targetPath`. -/
def labelDottedHit (targetName targetPath : String) (l : LabelDefinition) : Bool :=
  l.name == targetName &&
    (l.scopePath == some targetPath ||
      (match l.scopePath with
       | some sp => strEndsWith sp ("." ++ targetPath)
       | none => false))

/-- The widening parent-scope loop of the resolver: strip the last
dot-segment off the scope (or reach `null`), search at that scope, repeat
while the scope is not `null`.  The fuel bounds the number of strips (one
per dot plus one) and only serves termination. -/
def parentScopeSearchAux (lookupName : String)
    (dim : List (String × DocumentIndex)) :
    Nat → Option String → Option LabelDefinition
  | 0, _ => none
  | _ + 1, none => none
  | fuel + 1, some s =>
    let next := stripLastSeg s
    match findInAllDocs
        (fun l => l.name == lookupName && !l.isLocal && l.scopePath == next) dim with
    | some l => some l
    | none => parentScopeSearchAux lookupName dim fuel next

/-- `findSymbolInfo(word, fromUri, fromLine, documentIndex)` from the
symbols module: macro-call dot stripping, lowercase normalization, dotted
scope references, local-symbol lookup restricted to the originating
document, and the widening scope search ending at global scope. -/
def findSymbolInfo (word : String) (fromUri : String) (fromLine : Nat)
    (dim : List (String × DocumentIndex)) : Option LabelDefinition :=
  match mapLookup dim fromUri with
  | none => none
  | some fromIndex =>
    let ctx := scopeCtxAt fromIndex fromLine
    let currentScopePath := ctx.1
    let currentLocalScope := ctx.2
    let lookupWord :=
      if word.data.head? = some '.' && !((word.data.drop 1).contains '.') then
        (⟨word.data.drop 1⟩ : String)
      else word
    let lookupName := lowerStr lookupWord
    let isLocalSymbol := startsWithUnderscore lookupWord
    if lookupWord.data.contains '.' then
      let parts := splitOnChar '.' lookupName.data
      let targetName : String := ⟨parts.getLastD []⟩
      let targetPath := joinDots (parts.dropLast.map (fun p => (⟨p⟩ : String)))
      findInAllDocs (labelDottedHit targetName targetPath) dim
    else if isLocalSymbol then
      fromIndex.labels.find? (fun l =>
        l.name == lookupName && l.isLocal &&
        l.scopePath == currentScopePath && l.localScope == currentLocalScope)
    else
      match findInAllDocs (fun l =>
          l.name == lookupName && !l.isLocal && l.scopePath == currentScopePath) dim with
      | some l => some l
      | none =>
        let fuel := match currentScopePath with
                    | some s => s.data.length + 2
                    | none => 1
        match parentScopeSearchAux lookupName dim fuel currentScopePath with
        | some l => some l
        | none =>
          findInAllDocs (fun l =>
            l.name == lookupName && !l.isLocal && l.scopePath == none) dim

/-- Modelled from the spec: the case-sensitivity-aware revision of
`findSymbolInfo`.  The symbols module indexed here predates the
case-sensitivity setting (it always lowercases and its callers in the
current server pass a `caseSensitive` argument that the indexed revision
does not accept); the revision that accepts it is not among the source
files.  Following the spec - "Normalize per case-sensitivity mode" with
normalization centralized in one function taking the mode - this definition
is the indexed resolver with every `toLowerCase` normalization replaced by
`normalizeName caseSensitive`. -/
def findSymbolInfoCaseAware (cs : Bool) (word : String) (fromUri : String)
    (fromLine : Nat) (dim : List (String × DocumentIndex)) :
    Option LabelDefinition :=
  match mapLookup dim fromUri with
  | none => none
  | some fromIndex =>
    let ctx := scopeCtxAt fromIndex fromLine
    let currentScopePath := ctx.1
    let currentLocalScope := ctx.2
    let lookupWord :=
      if word.data.head? = some '.' && !((word.data.drop 1).contains '.') then
        (⟨word.data.drop 1⟩ : String)
      else word
    let lookupName := normalizeName cs lookupWord
    let isLocalSymbol := startsWithUnderscore lookupWord
    if lookupWord.data.contains '.' then
      let parts := splitOnChar '.' lookupName.data
      let targetName : String := ⟨parts.getLastD []⟩
      let targetPath := joinDots (parts.dropLast.map (fun p => (⟨p⟩ : String)))
      findInAllDocs (labelDottedHit targetName targetPath) dim
    else if isLocalSymbol then
      fromIndex.labels.find? (fun l =>
        l.name == lookupName && l.isLocal &&
        l.scopePath == currentScopePath && l.localScope == currentLocalScope)
    else
      match findInAllDocs (fun l =>
          l.name == lookupName && !l.isLocal && l.scopePath == currentScopePath) dim with
      | some l => some l
      | none =>
        let fuel := match currentScopePath with
                    | some s => s.data.length + 2
                    | none => 1
        match parentScopeSearchAux lookupName dim fuel currentScopePath with
        | some l => some l
        | none =>
          findInAllDocs (fun l =>
            l.name == lookupName && !l.isLocal && l.scopePath == none) dim

/-- The successive parents visited by `isParameter`'s `while` loop: strip
the last segment while the scope still contains a dot; the stripped parent
is checked, then the loop continues from it.  Fuel only serves
termination. -/
def parentScopesAux : Nat → String → List String
  | 0, _ => []
  | fuel + 1, s =>
    if s.data.contains '.' then
      match stripLastSeg s with
      | some p => p :: parentScopesAux fuel p
      | none => []
    else []

/-- `isParameter(symName, scopePath, index)` from the symbols module.
JS truthiness of `if (scopePath)` makes both `null` and the empty string
fail the guard. -/
def isParameter (symName : String) (scopePath : Option String)
    (index : DocumentIndex) : Bool :=
  let symLower := lowerStr symName
  match scopePath with
  | none => false
  | some sp =>
    if sp = "" then false
    else
      (match mapLookup index.parametersAtScope sp with
       | some params => params.contains symLower
       | none => false) ||
      ((parentScopesAux (sp.data.length + 1) sp).any (fun p =>
        match mapLookup index.parametersAtScope p with
        | some params => params.contains symLower
        | none => false))

/-! ## Duplicate-label detection (diagnostics module) -/

/-- A diagnostic; only the fields the claims inspect are modelled, and the
message drops the quote characters around the label name. -/
structure Diagnostic where
  isError : Bool
  range : SrcRange
  message : String
deriving DecidableEq, Repr

/-- The grouping key of the duplicate check, the template string
`scopePath ?? 'global' : localScope ?? 'none' : name`. -/
def dupKey (l : LabelDefinition) : String :=
  (l.scopePath.getD "global") ++ ":" ++ (l.localScope.getD "none") ++ ":" ++ l.name

/-- The duplicate-label error for a definition. -/
def dupDiag (l : LabelDefinition) : Diagnostic :=
  ⟨true, l.range, "Duplicate label " ++ l.originalName⟩

/-- The fold over the labels with the `seenLabels` map: anonymous labels
are skipped; a label whose key was already seen yields an error; otherwise
the key is recorded. -/
def dupAux : List (String × LabelDefinition) → List LabelDefinition → List Diagnostic
  | _, [] => []
  | seen, l :: rest =>
    if l.isAnonymous then dupAux seen rest
    else
      match mapLookup seen (dupKey l) with
      | some _ => dupDiag l :: dupAux seen rest
      | none => dupAux (mapSet seen (dupKey l) l) rest

/-- The duplicate-label section of `validateDocument`. -/
def duplicateLabelErrors (labels : List LabelDefinition) : List Diagnostic :=
  dupAux [] labels

/-! ## Expression tokenizer and the missing-operator check
(utils module `tokenizeExpression`, diagnostics module operand check) -/

/-- Token kinds of `tokenizeExpression`. -/
inductive TokKind
  | value
  | oper
  | paren
deriving DecidableEq, Repr

/-- A token: kind, text, and start offset within the expression. -/
structure Tok where
  kind : TokKind
  text : List Char
  start : Nat
deriving DecidableEq, Repr

/-- The operator alternation
`^(,|\+|-|\*|\/|&|\||<<|>>|<|>|\^)` in its source order (multi-character
operators listed before their one-character prefixes, so first-match
equals JS alternation order). -/
def OPERATOR_ALTS : List (List Char) :=
  [[','], ['+'], ['-'], ['*'], ['/'], ['&'], ['|'], ['<', '<'], ['>', '>'],
   ['<'], ['>'], ['^']]

/-- First operator alternative matching at the current position. -/
def firstOperMatch (l : List Char) : Option (List Char) :=
  OPERATOR_ALTS.find? (fun alt => (dropTok alt l).isSome)

/-- The value alternation
`^(\$[0-9a-fA-F]+|0x[0-9a-fA-F]+|%[01]+|0b[01]+|\d+|[a-zA-Z_][a-zA-Z0-9_]*)`
(no `i` flag: the `0x`/`0b` prefixes are lowercase only), alternatives
tried in order, each greedy. -/
def valueAltMatch (l : List Char) : Option (List Char) :=
  (match l with
   | '$' :: t =>
     let h := t.takeWhile isHexChar
     if h.length > 0 then some ('$' :: h) else none
   | _ => none) <|>
  (match l with
   | '0' :: 'x' :: t =>
     let h := t.takeWhile isHexChar
     if h.length > 0 then some ('0' :: 'x' :: h) else none
   | _ => none) <|>
  (match l with
   | '%' :: t =>
     let h := t.takeWhile isBinChar
     if h.length > 0 then some ('%' :: h) else none
   | _ => none) <|>
  (match l with
   | '0' :: 'b' :: t =>
     let h := t.takeWhile isBinChar
     if h.length > 0 then some ('0' :: 'b' :: h) else none
   | _ => none) <|>
  (let d := l.takeWhile isDigitChar
   if d.length > 0 then some d else none) <|>
  (match l with
   | c :: _ => if isAlphaChar c || c = '_' then some (l.takeWhile isWordChar) else none
   | [] => none)

/-- The string-literal scan of `tokenizeExpression`: consume up to and
including the closing quote, treating a doubled quote as an escape; an
unterminated string runs to the end.  Returns the consumed body (after the
opening quote) and the remainder.  Fuel only serves termination. -/
def scanStrBody (q : Char) : Nat → List Char → (List Char × List Char)
  | 0, rest => ([], rest)
  | _ + 1, [] => ([], [])
  | fuel + 1, c :: rest =>
    if c = q then
      match rest with
      | d :: rest2 =>
        if d = q then
          let r := scanStrBody q fuel rest2
          (c :: d :: r.1, r.2)
        else ([c], rest)
      | [] => ([c], [])
    else
      let r := scanStrBody q fuel rest
      (c :: r.1, r.2)

/-- The tokenizer loop: whitespace skip, string literal, operator, paren,
value, else skip one unknown character.  Fuel only serves termination
(every step consumes at least one character). -/
def tokenizeAux : Nat → List Char → Nat → List Tok
  | 0, _, _ => []
  | _ + 1, [], _ => []
  | fuel + 1, c :: rest, pos =>
    if isSpaceChar c then tokenizeAux fuel rest (pos + 1)
    else if c = quoteD || c = quoteS then
      let sb := scanStrBody c rest.length rest
      Tok.mk TokKind.value (c :: sb.1) pos ::
        tokenizeAux fuel sb.2 (pos + 1 + sb.1.length)
    else
      match firstOperMatch (c :: rest) with
      | some op =>
        Tok.mk TokKind.oper op pos ::
          tokenizeAux fuel ((c :: rest).drop op.length) (pos + op.length)
      | none =>
        if c = '(' || c = ')' then
          Tok.mk TokKind.paren [c] pos :: tokenizeAux fuel rest (pos + 1)
        else
          match valueAltMatch (c :: rest) with
          | some v =>
            Tok.mk TokKind.value v pos ::
              tokenizeAux fuel ((c :: rest).drop v.length) (pos + v.length)
          | none => tokenizeAux fuel rest (pos + 1)

/-- `tokenizeExpression(expr)`. -/
def tokenizeExpression (l : List Char) : List Tok :=
  tokenizeAux l.length l 0

/-- The label-definition guard `/^[a-zA-Z_][a-zA-Z0-9_]*\s*[:=]/`. -/
def isLabelDefLine (code : List Char) : Bool :=
  match code with
  | [] => false
  | c :: _ =>
    if isAlphaChar c || c = '_' then
      match (code.drop (code.takeWhile isWordChar).length).dropWhile isSpaceChar with
      | d :: _ => d = ':' || d = '='
      | [] => false
    else false

/-- The scope-definition guard
`/^[a-zA-Z_][a-zA-Z0-9_]*\s+\.(macro|function|proc|block|struct|union)\b/i`. -/
def isScopeDefLine (code : List Char) : Bool :=
  match code with
  | [] => false
  | c :: _ =>
    if isAlphaChar c || c = '_' then
      let name := code.takeWhile isWordChar
      let r1 := code.drop name.length
      let sp := r1.takeWhile isSpaceChar
      if sp.length = 0 then false
      else
        match r1.drop sp.length with
        | '.' :: r2 =>
          (matchDirWord ["macro", "function", "proc", "block", "struct", "union"] r2).isSome
        | _ => false
    else false

/-- Operand tail `\s+(.+)$` after a mnemonic or directive: at least one
whitespace character, then a nonempty remainder that the dot (which matches
neither `\r` nor `\n`) can reach the end anchor through.  When everything
after the whitespace run is empty, the greedy `\s+` gives back its final
character (if it may match `.` and at least one whitespace remains). -/
def operandTail (rest : List Char) : Option (List Char) :=
  let sp := rest.takeWhile isSpaceChar
  if sp.length = 0 then none
  else
    let after := rest.drop sp.length
    if after.length > 0 then
      if after.contains '\r' then none else some after
    else if sp.length ≥ 2 && !(sp.getLastD ' ' = '\r') then some [sp.getLastD ' ']
    else none

/-- The opcode-operand matcher
`/^\s*(?:[a-zA-Z_][a-zA-Z0-9_]*\s+)?([a-zA-Z]{3})\s+(.+)$/i`: the optional
label group is preferred when it matches (JS greediness); a shortened label
cannot match because a whitespace must follow it. -/
def opcodeOperandMatch (code : List Char) : Option (List Char × List Char) :=
  let l2 := code.dropWhile isSpaceChar
  let tryLabel : Option (List Char × List Char) :=
    match l2 with
    | [] => none
    | c :: _ =>
      if isAlphaChar c || c = '_' then
        let name := l2.takeWhile isWordChar
        let r1 := l2.drop name.length
        let sp := r1.takeWhile isSpaceChar
        if sp.length = 0 then none
        else opcodeAt (r1.drop sp.length)
      else none
  match tryLabel with
  | some r => some r
  | none => opcodeAt l2
where
  opcodeAt : List Char → Option (List Char × List Char)
    | a :: b :: d :: rest =>
      if isAlphaChar a && isAlphaChar b && isAlphaChar d then
        match operandTail rest with
        | some operand => some ([a, b, d], operand)
        | none => none
      else none
    | _ => none

/-- The data-directive words of the diagnostics operand check. -/
def DATA_DIR_WORDS : List String :=
  ["byte", "word", "long", "dword", "addr", "rta", "text", "ptext", "null",
   "fill", "char", "dint", "lint", "sint"]

/-- Match one of the directive words case-insensitively at the current
position, returning the remainder.  No word of the alternation is a prefix
of another, so committing to the first textual match is equivalent to JS
alternation with backtracking. -/
def matchAltCi (words : List String) (l : List Char) : Option (List Char × List Char) :=
  match words with
  | [] => none
  | w :: rest =>
    match dropTokCi w.data l with
    | some r => some (w.data, r)
    | none => matchAltCi rest l

/-- The data-directive operand matcher
`/^\s*(?:[a-zA-Z_][a-zA-Z0-9_]*\s+)?\.(byte|word|long|dword|addr|rta|text|ptext|null|fill|char|dint|lint|sint)\s+(.+)$/i`. -/
def dataDirOperandMatch (code : List Char) : Option (List Char × List Char) :=
  let l2 := code.dropWhile isSpaceChar
  let tryLabel : Option (List Char × List Char) :=
    match l2 with
    | [] => none
    | c :: _ =>
      if isAlphaChar c || c = '_' then
        let name := l2.takeWhile isWordChar
        let r1 := l2.drop name.length
        let sp := r1.takeWhile isSpaceChar
        if sp.length = 0 then none
        else dirAt (r1.drop sp.length)
      else none
  match tryLabel with
  | some r => some r
  | none => dirAt l2
where
  dirAt : List Char → Option (List Char × List Char)
    | '.' :: r2 =>
      match matchAltCi DATA_DIR_WORDS r2 with
      | some (w, rest) =>
        match operandTail rest with
        | some operand => some (w, operand)
        | none => none
      | none => none
    | _ => none

/-- The consecutive-value scan of the operand check: two adjacent `value`
tokens with nothing between them produce one error, positioned at the
second token (offset by the operand's start column) and quoting its
text. -/
def pairErrors (base : Nat) : List Tok → List (Nat × List Char)
  | t1 :: t2 :: rest =>
    (if t1.kind = TokKind.value ∧ t2.kind = TokKind.value then
      [(base + t2.start, t2.text)]
     else []) ++ pairErrors base (t2 :: rest)
  | _ => []

/-- The missing-operator errors `validateDocument` produces for one line:
strip the comment, skip blank lines and definition lines, select the
operand (and its start column, via `indexOf`) from the opcode branch when
its mnemonic is a known opcode and otherwise from the data-directive
branch, and then — whenever the data-directive pattern matched the line at
all, regardless of which branch supplied the operand — run the
operator-adjacency scan over the selected operand. -/
def missingOperatorErrors (line : List Char) : List (Nat × List Char) :=
  let code := stripComment line
  if (trimChars code).length = 0 then []
  else if isLabelDefLine code then []
  else if isScopeDefLine code then []
  else
    let dataOperand : Option (List Char) :=
      match dataDirOperandMatch code with
      | some (_, opnd) => some opnd
      | none => none
    let operand : Option (List Char) :=
      match opcodeOperandMatch code with
      | some (opc, opnd) =>
        if OPCODES.contains (lowerStr ⟨opc⟩) then some opnd else dataOperand
      | none => dataOperand
    match operand with
    | some opnd =>
      match dataDirOperandMatch code with
      | some _ =>
        let operandStart := (jsIndexOf code opnd).getD 0
        pairErrors operandStart (tokenizeExpression opnd)
      | none => []
    | none => []

/-! ## Numeric literal parsing and formatting (utils module) -/

/-- Value of one hex digit (either case). -/
def hexDigitVal (c : Char) : Nat :=
  if isDigitChar c then c.toNat - '0'.toNat
  else if ('a' : Char) ≤ c && c ≤ ('f' : Char) then c.toNat - 'a'.toNat + 10
  else if ('A' : Char) ≤ c && c ≤ ('F' : Char) then c.toNat - 'A'.toNat + 10
  else 0

/-- Value of a digit string in a base, most significant first - the
semantics of `parseInt(s, base)` for exact integers. -/
def digitsVal (base : Nat) (l : List Char) : Nat :=
  l.foldl (fun acc c => acc * base + hexDigitVal c) 0

/-- `parseNumericValue(value)`: `$hex`, `0xhex` (case-insensitive prefix),
`%bin`, `0bbin` (case-insensitive prefix), or optionally-signed decimal;
anything else is `null`. -/
def parseNumericValue (s : String) : Option Int :=
  let t := trimChars s.data
  let hexForm : Option (List Char) :=
    (match t with
     | '$' :: d => if d.length > 0 && d.all isHexChar then some d else none
     | _ => none) <|>
    (match t with
     | '0' :: x :: d =>
       if (toLowerChar x = 'x') && d.length > 0 && d.all isHexChar then some d else none
     | _ => none)
  match hexForm with
  | some d => some (Int.ofNat (digitsVal 16 d))
  | none =>
    let binForm : Option (List Char) :=
      (match t with
       | '%' :: d => if d.length > 0 && d.all isBinChar then some d else none
       | _ => none) <|>
      (match t with
       | '0' :: x :: d =>
         if (toLowerChar x = 'b') && d.length > 0 && d.all isBinChar then some d else none
       | _ => none)
    match binForm with
    | some d => some (Int.ofNat (digitsVal 2 d))
    | none =>
      match t with
      | '-' :: d =>
        if d.length > 0 && d.all isDigitChar then some (-(Int.ofNat (digitsVal 10 d))) else none
      | d =>
        if d.length > 0 && d.all isDigitChar then some (Int.ofNat (digitsVal 10 d)) else none

/-- The digit character JS `Number.prototype.toString(radix)` uses
(lowercase letters above 9). -/
def digitCharJs (k : Nat) : Char :=
  if k < 10 then Char.ofNat ('0'.toNat + k) else Char.ofNat ('a'.toNat + (k - 10))

/-- Worker for `jsNatToString`; fuel only serves termination and any fuel
above the number suffices. -/
def jsNatToStringAux (base : Nat) : Nat → Nat → List Char
  | 0, _ => []
  | fuel + 1, n =>
    if n < base then [digitCharJs n]
    else jsNatToStringAux base fuel (n / base) ++ [digitCharJs (n % base)]

/-- `n.toString(base)` for a nonnegative exact integer. -/
def jsNatToString (base n : Nat) : List Char :=
  jsNatToStringAux base (n + 1) n

/-- `formatNumericValue(num)`: the value rendered in binary, decimal and
uppercase hexadecimal, negative values via `Math.abs` with a leading
minus. -/
def formatNumericValue (n : Int) : String :=
  let bin : String :=
    if n ≥ 0 then "%" ++ (⟨jsNatToString 2 n.toNat⟩ : String)
    else "-" ++ "%" ++ (⟨jsNatToString 2 n.natAbs⟩ : String)
  let dec : String :=
    if n ≥ 0 then (⟨jsNatToString 10 n.toNat⟩ : String)
    else "-" ++ (⟨jsNatToString 10 n.natAbs⟩ : String)
  let hex : String :=
    if n ≥ 0 then "$" ++ upperStr ⟨jsNatToString 16 n.toNat⟩
    else "-$" ++ upperStr ⟨jsNatToString 16 n.natAbs⟩
  bin ++ ", " ++ dec ++ ", " ++ hex

/-! ## Claim theorems -/

/-- C1: the claim states that `parseDocument`'s scope tracking accepts any
accepted closer spelling of `OPENER_TO_CLOSERS` (for example `.endproc`
for `.proc`) and pops the innermost matching frame, so the scope path of
subsequent lines reverts to the enclosing scope.  Evaluating the indexer
at the failing input `"s .proc\n.endproc\n        nop"` shows the claim
fails on the code: `.endproc` is an accepted closer of `.proc` in the
constants table, yet the line after it still carries scope path `"s"`
because the closing loop only tests the primary closers of
`SCOPE_OPENERS`; the primary closer `.pend` does pop the frame. -/
theorem c1_alternate_closer_not_popped :
    (mapLookup (parseDocument "file:///a.asm" "s .proc\n.endproc\n        nop"
        false (fun _ => none)).scopeAtLine 2 = some ⟨some "s", none⟩) ∧
    ((mapLookup OPENER_TO_CLOSERS_SCOPED ".proc").getD []).contains ".endproc" = true ∧
    (mapLookup (parseDocument "file:///a.asm" "s .proc\n.pend\n        nop"
        false (fun _ => none)).scopeAtLine 2 = some ⟨none, none⟩) := by
  decide

/-- C2 (spec-modelled resolver): in case-sensitive mode, for a document
defining `MyLabel`, the resolver finds exactly the exact-case query and
returns not-found for `mylabel` and `MYLABEL`; three labels spelled alike
up to case in one scope produce no duplicate diagnostic, and each of the
three queries resolves independently to its own exact-case definition. -/
theorem c2_case_sensitive_resolution :
    (let dim := [("file:///a.asm",
        parseDocument "file:///a.asm" "MyLabel\n        lda #1" true (fun _ => none))]
     ((findSymbolInfoCaseAware true "MyLabel" "file:///a.asm" 1 dim).map
        (fun l => l.originalName) = some "MyLabel") ∧
     findSymbolInfoCaseAware true "mylabel" "file:///a.asm" 1 dim = none ∧
     findSymbolInfoCaseAware true "MYLABEL" "file:///a.asm" 1 dim = none) ∧
    (let idx := parseDocument "file:///a.asm"
        "MyLabel\nmylabel\nMYLABEL\n        lda #1" true (fun _ => none)
     let dim := [("file:///a.asm", idx)]
     duplicateLabelErrors idx.labels = [] ∧
     ((findSymbolInfoCaseAware true "MyLabel" "file:///a.asm" 3 dim).map
        (fun l => (l.originalName, l.range.startPos.line)) = some ("MyLabel", 0)) ∧
     ((findSymbolInfoCaseAware true "mylabel" "file:///a.asm" 3 dim).map
        (fun l => (l.originalName, l.range.startPos.line)) = some ("mylabel", 1)) ∧
     ((findSymbolInfoCaseAware true "MYLABEL" "file:///a.asm" 3 dim).map
        (fun l => (l.originalName, l.range.startPos.line)) = some ("MYLABEL", 2))) := by
  decide

/-- C5: the claim states duplicate detection groups by the tuple
`(scopePath, localScope, normalized name)`.  Evaluating the code at the
failing input `"global .block\nx = 1\n.bend\nx = 2"` shows the two `x`
definitions have different scope paths (`some "global"` and `none`), yet
one duplicate error is reported, because the grouping key renders a `null`
scope path as the string `"global"`, which collides with a scope actually
named `global` (and likewise `null` local scope with `"none"`).  The
claim's positive parts do hold: anonymous `+`/`-` labels repeat freely
with no diagnostic, and a genuine second same-scope definition is flagged
exactly once. -/
theorem c5_duplicate_key_sentinel_collision :
    (let idx := parseDocument "file:///a.asm" "global .block\nx = 1\n.bend\nx = 2"
        false (fun _ => none)
     ((idx.labels.filter (fun l => l.name == "x")).map (fun l => l.scopePath)
        = [some "global", none]) ∧
     ((duplicateLabelErrors idx.labels).map
        (fun d => (d.isError, d.range.startPos.line, d.message))
        = [(true, 3, "Duplicate label x")])) ∧
    duplicateLabelErrors (parseDocument "file:///a.asm" "main\n+\n+\n        nop"
        false (fun _ => none)).labels = [] ∧
    ((duplicateLabelErrors (parseDocument "file:///a.asm" "x\nx"
        false (fun _ => none)).labels).map (fun d => d.range.startPos.line) = [1]) := by
  decide

/-- C7 counterexample: the claim states `.byte 1 2 3` produces exactly one
missing-operator error (before `'2'`).  The code flags every adjacent
value/value pair, so the line produces two errors - at the `'2'` (column 8)
and at the `'3'` (column 10) - and in particular not exactly one. -/
theorem c7_single_error_counterexample :
    missingOperatorErrors ".byte 1 2 3".data = [(8, ['2']), (10, ['3'])] ∧
    ¬((missingOperatorErrors ".byte 1 2 3".data).length = 1) := by
  decide

/-- C7 (amended): `.byte 1 2 3` produces exactly two missing-operator
errors, one before the `'2'` and one before the `'3'` (each adjacent
value/value pair is flagged); operands whose adjacent values are separated
by an operator, comma, or parenthesis produce none. -/
theorem c7_operator_adjacency :
    missingOperatorErrors ".byte 1 2 3".data = [(8, ['2']), (10, ['3'])] ∧
    missingOperatorErrors ".byte 1, 2, 3".data = [] ∧
    missingOperatorErrors ".byte 2*3+4, 5-1".data = [] ∧
    missingOperatorErrors ".byte (1+2), 3".data = [] := by
  decide

/-- C10: with a `null` scope path, `isParameter` is `false` for every
symbol name and every document index - outside any directive scope no name
is treated as a macro or function parameter. -/
theorem c10_isparameter_null_scope (name : String) (idx : DocumentIndex) :
    isParameter name none idx = false := rfl

/-- The document-index map of the C3 witness instance. -/
def c3WitnessDim : List (String × DocumentIndex) :=
  [("file:///a.asm",
    parseDocument "file:///a.asm" "main\n_loc = 1\n        lda #_loc" false (fun _ => none))]

/-- The label the C3 witness instance resolves to. -/
def c3WitnessLabel : LabelDefinition :=
  { name := "_loc", originalName := "_loc", uri := "file:///a.asm",
    range := rangeAt 1 0 4, scopePath := none, localScope := some "main",
    isLocal := true }

/-- C3: resolving a non-dotted name that starts with `_` searches only the
originating document's labels and succeeds only on a definition flagged
local whose scope path and local scope both equal the scope context
recorded at the query line; in particular, for the document
`"a\n_x = 1\nb\n   lda #_x"` resolving `_x` from the `lda` line (local
scope `b`) is not-found even though `_x` is defined under local scope `a`.
Any result comes from the originating document's own label list, so no
cross-document match is ever returned for a local symbol.  (A name
containing a dot takes the dotted-scope-path branch first, matching the
spec's else-ordering, hence the no-dot hypothesis.) -/
theorem c3_local_symbol_resolution :
    (∀ (dim : List (String × DocumentIndex)) (word fromUri : String) (fromLine : Nat)
        (l : LabelDefinition),
      word.data.head? = some '_' →
      word.data.contains '.' = false →
      findSymbolInfo word fromUri fromLine dim = some l →
      ∃ idx, mapLookup dim fromUri = some idx ∧ l ∈ idx.labels ∧
        l.isLocal = true ∧ l.name = lowerStr word ∧
        l.scopePath = (scopeCtxAt idx fromLine).1 ∧
        l.localScope = (scopeCtxAt idx fromLine).2) ∧
    findSymbolInfo "_x" "file:///a.asm" 3
      [("file:///a.asm",
        parseDocument "file:///a.asm" "a\n_x = 1\nb\n   lda #_x" false (fun _ => none))]
      = none := by
  constructor
  · intro dim word fromUri fromLine l hhead hdot hfind
    unfold findSymbolInfo at hfind
    cases hdim : mapLookup dim fromUri with
    | none => rw [hdim] at hfind; exact absurd hfind (by simp)
    | some idx =>
      rw [hdim] at hfind
      simp only at hfind
      have hc : (decide (word.data.head? = some '.')
          && !(List.drop 1 word.data).contains '.') = false := by
        rw [hhead]; simp
      rw [hc] at hfind
      simp only [Bool.false_eq_true, if_false] at hfind
      rw [hdot] at hfind
      simp only [Bool.false_eq_true, if_false] at hfind
      have hsw : startsWithUnderscore word = true := by
        unfold startsWithUnderscore
        cases hd : word.data with
        | nil => rw [hd] at hhead; exact absurd hhead (by simp)
        | cons c rest =>
          rw [hd] at hhead
          simp at hhead
          simp [hhead]
      rw [hsw] at hfind
      simp only [if_true] at hfind
      refine ⟨idx, rfl, List.mem_of_find?_eq_some hfind, ?_⟩
      have hp := List.find?_some hfind
      simp only [Bool.and_eq_true, beq_iff_eq] at hp
      obtain ⟨⟨⟨hn, hl⟩, hsp⟩, hls⟩ := hp
      exact ⟨hl, hn, hsp, hls⟩
  · decide

/-- C3 witness: the universal statement applied to a concrete resolvable
local symbol, with every hypothesis discharged by evaluation. -/
theorem c3_local_symbol_resolution_witness :
    ("_loc".data.head? = some '_' ∧ "_loc".data.contains '.' = false ∧
      findSymbolInfo "_loc" "file:///a.asm" 2 c3WitnessDim = some c3WitnessLabel) ∧
    (∃ idx, mapLookup c3WitnessDim "file:///a.asm" = some idx ∧
      c3WitnessLabel ∈ idx.labels ∧
      c3WitnessLabel.isLocal = true ∧ c3WitnessLabel.name = lowerStr "_loc" ∧
      c3WitnessLabel.scopePath = (scopeCtxAt idx 2).1 ∧
      c3WitnessLabel.localScope = (scopeCtxAt idx 2).2) :=
  ⟨⟨by decide, by decide, by decide⟩,
   c3_local_symbol_resolution.1 c3WitnessDim "_loc" "file:///a.asm" 2 c3WitnessLabel
     (by decide) (by decide) (by decide)⟩

/-! ## Round-trip lemmas for numeric formatting (claim C8)

The reading direction is specified independently of the code: a part
"contains the value correctly rendered in a base" when an elementary
digit-fold over that base's digit set recovers the value (with a leading
minus negating).  The lemmas then show `jsNatToString` - the embedding of
JS `Number.prototype.toString(radix)` - produces exactly such digit
strings. -/

theorem hexDigitVal_digitCharJs : ∀ k, k < 16 → hexDigitVal (digitCharJs k) = k := by
  decide

theorem digitsVal_append_single (base : Nat) (l : List Char) (c : Char) :
    digitsVal base (l ++ [c]) = digitsVal base l * base + hexDigitVal c := by
  simp [digitsVal, List.foldl_append]

theorem jsNatToStringAux_ne_nil (base : Nat) :
    ∀ fuel n, 0 < fuel → jsNatToStringAux base fuel n ≠ [] := by
  intro fuel n hf
  cases fuel with
  | zero => omega
  | succ f =>
    unfold jsNatToStringAux
    by_cases h : n < base
    · simp [h]
    · simp [h]

/-- Reading the digits of `jsNatToStringAux` back in its base recovers the
number, through any digit transformation `g` that preserves digit values
(identity, or uppercasing). -/
theorem digitsVal_jsNat (base : Nat) (hb2 : 2 ≤ base) (hb16 : base ≤ 16)
    (g : Char → Char) (hg : ∀ k, k < base → hexDigitVal (g (digitCharJs k)) = k) :
    ∀ fuel n, n < fuel → digitsVal base ((jsNatToStringAux base fuel n).map g) = n := by
  intro fuel
  induction fuel with
  | zero => intro n h; omega
  | succ f ih =>
    intro n h
    unfold jsNatToStringAux
    by_cases hnb : n < base
    · simp [hnb, digitsVal, hg n hnb]
    · simp only [hnb, if_false]
      rw [List.map_append]
      simp only [List.map_cons, List.map_nil]
      rw [digitsVal_append_single]
      have h1 : n / base < f := by
        have h2 : n / base < n := Nat.div_lt_self (by omega) (by omega)
        omega
      rw [ih (n / base) h1]
      rw [hg _ (Nat.mod_lt _ (by omega))]
      have hdm : base * (n / base) + n % base = n := Nat.div_add_mod n base
      rw [Nat.mul_comm] at hdm
      exact hdm

theorem jsNatToStringAux_all (base : Nat) (hb : 0 < base) (P : Char → Bool)
    (hP : ∀ k, k < base → P (digitCharJs k) = true) :
    ∀ fuel n, (jsNatToStringAux base fuel n).all P = true := by
  intro fuel
  induction fuel with
  | zero => intro n; simp [jsNatToStringAux]
  | succ f ih =>
    intro n
    unfold jsNatToStringAux
    by_cases hnb : n < base
    · simp [hnb, hP n hnb]
    · simp only [hnb, if_false, List.all_append]
      rw [ih (n / base)]
      simp [hP _ (Nat.mod_lt _ hb)]

/-- Modelled from the spec's words: the value an unsigned binary literal
`%digits` denotes (digit fold in base 2). -/
def binMagnitude (l : List Char) : Option Int :=
  match l with
  | c :: d =>
    if c = '%' then
      (if d.length > 0 && d.all isBinChar then some (Int.ofNat (digitsVal 2 d)) else none)
    else none
  | [] => none

/-- Modelled from the spec's words: the value a possibly-negated binary
literal denotes. -/
def binPartValue (s : String) : Option Int :=
  match s.data with
  | c :: rest =>
    if c = '-' then (binMagnitude rest).map (fun v => -v)
    else binMagnitude (c :: rest)
  | [] => none

/-- Modelled from the spec's words: the value an unsigned decimal digit
string denotes. -/
def decMagnitude (l : List Char) : Option Int :=
  if l.length > 0 && l.all isDigitChar then some (Int.ofNat (digitsVal 10 l)) else none

/-- Modelled from the spec's words: the value a possibly-negated decimal
literal denotes. -/
def decPartValue (s : String) : Option Int :=
  match s.data with
  | c :: rest =>
    if c = '-' then (decMagnitude rest).map (fun v => -v)
    else decMagnitude (c :: rest)
  | [] => none

/-- Modelled from the spec's words: the value an unsigned hexadecimal
literal `$digits` denotes (either letter case). -/
def hexMagnitude (l : List Char) : Option Int :=
  match l with
  | c :: d =>
    if c = '$' then
      (if d.length > 0 && d.all isHexChar then some (Int.ofNat (digitsVal 16 d)) else none)
    else none
  | [] => none

/-- Modelled from the spec's words: the value a possibly-negated
hexadecimal literal denotes. -/
def hexPartValue (s : String) : Option Int :=
  match s.data with
  | c :: rest =>
    if c = '-' then (hexMagnitude rest).map (fun v => -v)
    else hexMagnitude (c :: rest)
  | [] => none

theorem binMagnitude_jsNat (m : Nat) :
    binMagnitude ('%' :: jsNatToString 2 m) = some (Int.ofNat m) := by
  have hne := jsNatToStringAux_ne_nil 2 (m + 1) m (by omega)
  have hall := jsNatToStringAux_all 2 (by omega) isBinChar (by decide) (m + 1) m
  have hval := digitsVal_jsNat 2 (by omega) (by omega) id
      (by intro k hk; simpa using hexDigitVal_digitCharJs k (by omega)) (m + 1) m (by omega)
  simp only [List.map_id] at hval
  unfold binMagnitude
  simp only [if_pos rfl, jsNatToString]
  have hlen : (0 : Nat) < (jsNatToStringAux 2 (m + 1) m).length := List.length_pos.mpr hne
  rw [hval]
  have hcond : (decide ((jsNatToStringAux 2 (m + 1) m).length > 0)
      && (jsNatToStringAux 2 (m + 1) m).all isBinChar) = true := by
    rw [Bool.and_eq_true]
    exact ⟨decide_eq_true hlen, hall⟩
  rw [if_pos hcond]
  try simp

theorem decMagnitude_jsNat (m : Nat) :
    decMagnitude (jsNatToString 10 m) = some (Int.ofNat m) := by
  have hne := jsNatToStringAux_ne_nil 10 (m + 1) m (by omega)
  have hall := jsNatToStringAux_all 10 (by omega) isDigitChar (by decide) (m + 1) m
  have hval := digitsVal_jsNat 10 (by omega) (by omega) id
      (by intro k hk; simpa using hexDigitVal_digitCharJs k (by omega)) (m + 1) m (by omega)
  simp only [List.map_id] at hval
  unfold decMagnitude
  simp only [jsNatToString]
  rw [hval]
  have hlen : (0 : Nat) < (jsNatToStringAux 10 (m + 1) m).length := List.length_pos.mpr hne
  have hcond : (decide ((jsNatToStringAux 10 (m + 1) m).length > 0)
      && (jsNatToStringAux 10 (m + 1) m).all isDigitChar) = true := by
    rw [Bool.and_eq_true]
    exact ⟨decide_eq_true hlen, hall⟩
  rw [if_pos hcond]
  try simp

theorem hexMagnitude_jsNat (m : Nat) :
    hexMagnitude ('$' :: (jsNatToString 16 m).map toUpperChar) = some (Int.ofNat m) := by
  have hne := jsNatToStringAux_ne_nil 16 (m + 1) m (by omega)
  have hall := jsNatToStringAux_all 16 (by omega) (fun c => isHexChar (toUpperChar c))
      (by decide) (m + 1) m
  have hval := digitsVal_jsNat 16 (by omega) (by omega) toUpperChar
      (by decide) (m + 1) m (by omega)
  unfold hexMagnitude
  simp only [jsNatToString, if_pos rfl]
  rw [hval]
  have hlen : (0 : Nat) < ((jsNatToStringAux 16 (m + 1) m).map toUpperChar).length := by
    rw [List.length_map]
    exact List.length_pos.mpr hne
  have hallm : ((jsNatToStringAux 16 (m + 1) m).map toUpperChar).all isHexChar = true := by
    rw [List.all_map]
    exact hall
  have hcond : (decide (((jsNatToStringAux 16 (m + 1) m).map toUpperChar).length > 0)
      && ((jsNatToStringAux 16 (m + 1) m).map toUpperChar).all isHexChar) = true := by
    rw [Bool.and_eq_true]
    exact ⟨decide_eq_true hlen, hallm⟩
  rw [if_pos hcond]
  try simp

theorem formatNumericValue_nonneg (m : Nat) :
    formatNumericValue (Int.ofNat m) =
      (⟨'%' :: jsNatToString 2 m⟩ : String) ++ ", " ++ (⟨jsNatToString 10 m⟩ : String)
        ++ ", " ++ (⟨'$' :: (jsNatToString 16 m).map toUpperChar⟩ : String) := by
  have h0 : (Int.ofNat m) ≥ 0 := Int.ofNat_nonneg m
  unfold formatNumericValue
  dsimp only
  rw [if_pos h0, if_pos h0, if_pos h0]
  rw [show (Int.ofNat m).toNat = m from rfl]
  rfl

theorem formatNumericValue_neg (m : Nat) :
    formatNumericValue (Int.negSucc m) =
      (⟨'-' :: '%' :: jsNatToString 2 (m + 1)⟩ : String) ++ ", "
        ++ (⟨'-' :: jsNatToString 10 (m + 1)⟩ : String)
        ++ ", " ++ (⟨'-' :: '$' :: (jsNatToString 16 (m + 1)).map toUpperChar⟩ : String) := by
  have h0 : ¬((Int.negSucc m) ≥ 0) := not_le.mpr (Int.negSucc_lt_zero m)
  unfold formatNumericValue
  dsimp only
  rw [if_neg h0, if_neg h0, if_neg h0]
  rw [show (Int.negSucc m).natAbs = m + 1 from rfl]
  rfl

theorem binPartValue_pos (m : Nat) :
    binPartValue ⟨'%' :: jsNatToString 2 m⟩ = some (Int.ofNat m) := by
  unfold binPartValue
  dsimp only
  rw [if_neg (by decide)]
  exact binMagnitude_jsNat m

theorem binPartValue_neg (m : Nat) :
    binPartValue ⟨'-' :: '%' :: jsNatToString 2 (m + 1)⟩ = some (Int.negSucc m) := by
  unfold binPartValue
  dsimp only
  rw [if_pos rfl, binMagnitude_jsNat (m + 1)]
  simp [Int.negSucc_eq]

theorem decPartValue_pos (m : Nat) :
    decPartValue ⟨jsNatToString 10 m⟩ = some (Int.ofNat m) := by
  have hne := jsNatToStringAux_ne_nil 10 (m + 1) m (by omega)
  unfold decPartValue
  cases hq : jsNatToString 10 m with
  | nil => exact absurd hq hne
  | cons c rest =>
    dsimp only
    have hc : ¬(c = '-') := by
      have hall := jsNatToStringAux_all 10 (by omega) isDigitChar (by decide) (m + 1) m
      rw [show jsNatToStringAux 10 (m + 1) m = jsNatToString 10 m from rfl, hq] at hall
      simp only [List.all_cons, Bool.and_eq_true] at hall
      intro he
      rw [he] at hall
      exact absurd hall.1 (by decide)
    rw [if_neg hc, ← hq]
    exact decMagnitude_jsNat m

theorem decPartValue_neg (m : Nat) :
    decPartValue ⟨'-' :: jsNatToString 10 (m + 1)⟩ = some (Int.negSucc m) := by
  unfold decPartValue
  dsimp only
  rw [if_pos rfl, decMagnitude_jsNat (m + 1)]
  simp [Int.negSucc_eq]

theorem hexPartValue_pos (m : Nat) :
    hexPartValue ⟨'$' :: (jsNatToString 16 m).map toUpperChar⟩ = some (Int.ofNat m) := by
  unfold hexPartValue
  dsimp only
  rw [if_neg (by decide)]
  exact hexMagnitude_jsNat m

theorem hexPartValue_neg (m : Nat) :
    hexPartValue ⟨'-' :: '$' :: (jsNatToString 16 (m + 1)).map toUpperChar⟩
      = some (Int.negSucc m) := by
  unfold hexPartValue
  dsimp only
  rw [if_pos rfl, hexMagnitude_jsNat (m + 1)]
  simp [Int.negSucc_eq]

/-- C8: for every string `parseNumericValue` accepts, yielding the integer
`n`, `formatNumericValue n` is exactly a binary part, a decimal part and a
hexadecimal part joined by `", "`, where each part denotes `n` in its base
(a leading minus negating); and the claim's three examples evaluate as
stated. -/
theorem c8_format_round_trip :
    (∀ (s : String) (n : Int), parseNumericValue s = some n →
      ∃ b d h : String,
        formatNumericValue n = b ++ ", " ++ d ++ ", " ++ h ∧
        binPartValue b = some n ∧ decPartValue d = some n ∧ hexPartValue h = some n) ∧
    formatNumericValue 255 = "%11111111, 255, $FF" ∧
    formatNumericValue 0 = "%0, 0, $0" ∧
    formatNumericValue (-1) = "-%1, -1, -$1" := by
  refine ⟨?_, by decide, by decide, by decide⟩
  intro s n _
  cases n with
  | ofNat m =>
    exact ⟨⟨'%' :: jsNatToString 2 m⟩, ⟨jsNatToString 10 m⟩,
           ⟨'$' :: (jsNatToString 16 m).map toUpperChar⟩,
           formatNumericValue_nonneg m, binPartValue_pos m,
           decPartValue_pos m, hexPartValue_pos m⟩
  | negSucc m =>
    exact ⟨⟨'-' :: '%' :: jsNatToString 2 (m + 1)⟩, ⟨'-' :: jsNatToString 10 (m + 1)⟩,
           ⟨'-' :: '$' :: (jsNatToString 16 (m + 1)).map toUpperChar⟩,
           formatNumericValue_neg m, binPartValue_neg m,
           decPartValue_neg m, hexPartValue_neg m⟩

/-- C8 witness: the round-trip statement applied to the concrete parsed
literal `"255"`. -/
theorem c8_format_round_trip_witness :
    parseNumericValue "255" = some 255 ∧
    (∃ b d h : String,
      formatNumericValue 255 = b ++ ", " ++ d ++ ", " ++ h ∧
      binPartValue b = some 255 ∧ decPartValue d = some 255 ∧ hexPartValue h = some 255) :=
  ⟨by decide, c8_format_round_trip.1 "255" 255 (by decide)⟩

/-! ## Infrastructure for the fold invariants (claims C4, C6, C9) -/

theorem mapLookup_mapSet_self {κ α : Type} [DecidableEq κ] (m : List (κ × α)) (k : κ) (v : α) :
    mapLookup (mapSet m k v) k = some v := by
  induction m with
  | nil => simp [mapSet, mapLookup]
  | cons p rest ih =>
    obtain ⟨k', v'⟩ := p
    by_cases h : k' = k
    · simp [mapSet, h, mapLookup]
    · simp [mapSet, h, mapLookup, ih]

theorem mapLookup_mapSet_ne {κ α : Type} [DecidableEq κ] (m : List (κ × α)) (k j : κ) (v : α)
    (hne : j ≠ k) : mapLookup (mapSet m k v) j = mapLookup m j := by
  induction m with
  | nil => simp [mapSet, mapLookup, Ne.symm hne]
  | cons p rest ih =>
    obtain ⟨k', v'⟩ := p
    by_cases h : k' = k
    · subst h
      simp [mapSet, mapLookup, Ne.symm hne]
    · simp [mapSet, h, mapLookup, ih]

theorem mapSet_keys_mem {κ α : Type} [DecidableEq κ] (m : List (κ × α)) (k : κ) (v : α)
    (hmem : k ∈ m.map Prod.fst) :
    (mapSet m k v).map Prod.fst = m.map Prod.fst := by
  induction m with
  | nil => simp at hmem
  | cons p rest ih =>
    obtain ⟨k', v'⟩ := p
    by_cases h : k' = k
    · simp [mapSet, h]
    · simp only [List.map_cons] at hmem
      rcases List.mem_cons.mp hmem with h1 | h1
      · exact absurd h1.symm h
      · simp [mapSet, h, ih h1]

theorem mapSet_keys_new {κ α : Type} [DecidableEq κ] (m : List (κ × α)) (k : κ) (v : α)
    (hmem : k ∉ m.map Prod.fst) :
    (mapSet m k v).map Prod.fst = m.map Prod.fst ++ [k] := by
  induction m with
  | nil => simp [mapSet]
  | cons p rest ih =>
    obtain ⟨k', v'⟩ := p
    simp only [List.map_cons, List.mem_cons] at hmem
    push_neg at hmem
    simp [mapSet, Ne.symm hmem.1, ih hmem.2]

theorem mem_keys_mapSet {κ α : Type} [DecidableEq κ] (m : List (κ × α)) (k : κ) (v : α) :
    k ∈ (mapSet m k v).map Prod.fst := by
  by_cases h : k ∈ m.map Prod.fst
  · rw [mapSet_keys_mem m k v h]; exact h
  · rw [mapSet_keys_new m k v h]; simp

theorem foldl_preserve {α β : Type} (f : β → α → β) (P : β → Prop) (l : List α) (init : β)
    (h : ∀ b a, a ∈ l → P b → P (f b a)) (h0 : P init) : P (l.foldl f init) := by
  induction l generalizing init with
  | nil => exact h0
  | cons a rest ih =>
    exact ih (f init a) (fun b x hx hb => h b x (List.mem_cons_of_mem a hx) hb)
      (h init a (List.mem_cons_self a rest) h0)

theorem charOfNat_toNat (n : Nat) (h : n < 55296) : (Char.ofNat n).toNat = n := by
  unfold Char.ofNat
  rw [dif_pos (Or.inl h)]
  rfl

/-- Lowercasing never turns a letter into an underscore. -/
theorem toLowerChar_ne_underscore (c : Char) (h : isAlphaChar c = true) :
    ¬(toLowerChar c = '_') := by
  simp only [isAlphaChar, Bool.or_eq_true, Bool.and_eq_true, decide_eq_true_eq] at h
  unfold toLowerChar
  by_cases hu : ((('A' : Char) ≤ c) && (c ≤ ('Z' : Char))) = true
  · rw [if_pos hu]
    simp only [Bool.and_eq_true, decide_eq_true_eq] at hu
    have h1 : ('A' : Char).toNat ≤ c.toNat := hu.1
    have h2 : c.toNat ≤ ('Z' : Char).toNat := hu.2
    have hA : ('A' : Char).toNat = 65 := rfl
    have hZ : ('Z' : Char).toNat = 90 := rfl
    intro he
    have ht := congrArg Char.toNat he
    rw [charOfNat_toNat (c.toNat + 32) (by omega)] at ht
    have hund : ('_' : Char).toNat = 95 := rfl
    omega
  · rw [if_neg hu]
    intro he
    rw [he] at h
    rcases h with ⟨h1, _⟩ | ⟨_, h2⟩
    · exact absurd h1 (by decide)
    · exact absurd h2 (by decide)

/-- Lowercasing never produces a dot from a non-dot. -/
theorem toLowerChar_eq_dot (c : Char) (h : toLowerChar c = '.') : c = '.' := by
  unfold toLowerChar at h
  by_cases hu : ((('A' : Char) ≤ c) && (c ≤ ('Z' : Char))) = true
  · rw [if_pos hu] at h
    simp only [Bool.and_eq_true, decide_eq_true_eq] at hu
    have h1 : ('A' : Char).toNat ≤ c.toNat := hu.1
    have h2 : c.toNat ≤ ('Z' : Char).toNat := hu.2
    have hA : ('A' : Char).toNat = 65 := rfl
    have hZ : ('Z' : Char).toNat = 90 := rfl
    have ht := congrArg Char.toNat h
    rw [charOfNat_toNat (c.toNat + 32) (by omega)] at ht
    have hdot : ('.' : Char).toNat = 46 := rfl
    omega
  · rwa [if_neg hu] at h

/-- A normalized string starts with an underscore exactly when it already
did, provided its head is a letter or an underscore. -/
theorem startsWithUnderscore_normalize (cs : Bool) (c : Char) (l : List Char)
    (h : isAlphaChar c = true ∨ c = '_') :
    startsWithUnderscore (normalizeName cs ⟨c :: l⟩)
      = startsWithUnderscore (⟨c :: l⟩ : String) := by
  cases cs with
  | true => rfl
  | false =>
    show startsWithUnderscore (lowerStr ⟨c :: l⟩) = _
    unfold lowerStr startsWithUnderscore
    simp only [List.map_cons]
    rcases h with h | h
    · have h1 : ¬(toLowerChar c = '_') := toLowerChar_ne_underscore c h
      have h2 : ¬(c = '_') := by
        intro he
        rw [he] at h
        exact absurd h (by decide)
      simp [h1, h2]
    · rw [h]
      rfl

/-- The label-shape invariant of claim C9 (amended): a non-anonymous
definition is local exactly when its stored name starts with `_`; an
anonymous definition is flagged local and named `+` or `-`. -/
def QLabel (l : LabelDefinition) : Prop :=
  (l.isAnonymous = false → l.isLocal = startsWithUnderscore l.name) ∧
  (l.isAnonymous = true → l.isLocal = true ∧ (l.name = "+" ∨ l.name = "-"))

/-- The scope-stack invariant of claim C6: named frames carry dot-free
names. -/
def StackOk (stack : List ScopeFrame) : Prop :=
  ∀ f ∈ stack, ∀ nm, f.name = some nm → ('.' : Char) ∉ nm.data

/-- Evolution predicate for `scopeAtLine` within one line: only the line's
own key is ever set. -/
def ScopeSetsOnly (i : Nat) (m m' : List (Nat × LineScope)) : Prop :=
  (∀ j, ¬(j = i) → mapLookup m' j = mapLookup m j) ∧
  (i ∈ m.map Prod.fst → m'.map Prod.fst = m.map Prod.fst)

theorem scopeSetsOnly_refl (i : Nat) (m : List (Nat × LineScope)) : ScopeSetsOnly i m m :=
  ⟨fun _ _ => rfl, fun _ => rfl⟩

theorem scopeSetsOnly_trans {i : Nat} {m1 m2 m3 : List (Nat × LineScope)}
    (h1 : ScopeSetsOnly i m1 m2) (h2 : ScopeSetsOnly i m2 m3) : ScopeSetsOnly i m1 m3 := by
  refine ⟨fun j hj => (h2.1 j hj).trans (h1.1 j hj), fun hm => ?_⟩
  have k1 := h1.2 hm
  have k2 := h2.2 (by rw [k1]; exact hm)
  rw [k2, k1]

theorem scopeSetsOnly_mapSet (i : Nat) (m : List (Nat × LineScope)) (v : LineScope) :
    ScopeSetsOnly i m (mapSet m i v) :=
  ⟨fun j hj => mapLookup_mapSet_ne m i j v hj, fun hm => mapSet_keys_mem m i v hm⟩

theorem popInnermost_subset (dir : String) :
    ∀ s s', popInnermost dir s = some s' → ∀ f ∈ s', f ∈ s := by
  intro s
  induction s with
  | nil => intro s' h; simp [popInnermost] at h
  | cons g rest ih =>
    intro s' h f hf
    unfold popInnermost at h
    cases hp : popInnermost dir rest with
    | some rest' =>
      rw [hp] at h
      injection h with h
      subst h
      rcases List.mem_cons.mp hf with h1 | h1
      · exact List.mem_cons.mpr (Or.inl h1)
      · exact List.mem_cons.mpr (Or.inr (ih rest' hp f h1))
    | none =>
      rw [hp] at h
      by_cases hd : g.directive = dir
      · rw [if_pos hd] at h
        injection h with h
        subst h
        exact List.mem_cons.mpr (Or.inr hf)
      · rw [if_neg hd] at h
        exact absurd h (by simp)

theorem recordScope_fields (i : Nat) (st : ParseState) :
    (recordScope i st).labels = st.labels ∧
    (recordScope i st).scopeStack = st.scopeStack ∧
    (recordScope i st).currentLocalScope = st.currentLocalScope ∧
    (recordScope i st).macroCapture = st.macroCapture ∧
    (recordScope i st).scopeAtLine =
      mapSet st.scopeAtLine i ⟨getCurrentScopePath st.scopeStack, st.currentLocalScope⟩ :=
  ⟨rfl, rfl, rfl, rfl, rfl⟩

theorem includePhase_fields (r : String → Option String) (line : List Char) (st : ParseState) :
    (includePhase r line st).labels = st.labels ∧
    (includePhase r line st).scopeAtLine = st.scopeAtLine ∧
    (includePhase r line st).scopeStack = st.scopeStack ∧
    (includePhase r line st).currentLocalScope = st.currentLocalScope ∧
    (includePhase r line st).macroCapture = st.macroCapture := by
  unfold includePhase
  repeat' split
  all_goals exact ⟨rfl, rfl, rfl, rfl, rfl⟩

theorem finalizeMacroCapture_fields (cs : Bool) (lines : List (List Char)) (i : Nat)
    (st : ParseState) :
    (finalizeMacroCapture cs lines i st).labels = st.labels ∧
    (finalizeMacroCapture cs lines i st).scopeAtLine = st.scopeAtLine ∧
    (finalizeMacroCapture cs lines i st).scopeStack = st.scopeStack ∧
    (finalizeMacroCapture cs lines i st).currentLocalScope = st.currentLocalScope := by
  unfold finalizeMacroCapture
  dsimp only
  repeat' split
  all_goals exact ⟨rfl, rfl, rfl, rfl⟩

theorem stackOk_of_subset {s s' : List ScopeFrame} (h : ∀ f ∈ s', f ∈ s)
    (hs : StackOk s) : StackOk s' :=
  fun f hf nm hnm => hs f (h f hf) nm hnm

theorem closersStep_fields (cs : Bool) (lines : List (List Char)) (i : Nat)
    (ll : List Char) (acc : ParseState × Bool) (pr : String × String) :
    (closersStep cs lines i ll acc pr).1.labels = acc.1.labels ∧
    (closersStep cs lines i ll acc pr).1.scopeAtLine = acc.1.scopeAtLine ∧
    (closersStep cs lines i ll acc pr).1.currentLocalScope = acc.1.currentLocalScope ∧
    ((closersStep cs lines i ll acc pr).2 = false →
      (closersStep cs lines i ll acc pr).1.scopeStack = acc.1.scopeStack ∧ acc.2 = false) ∧
    (StackOk acc.1.scopeStack → StackOk (closersStep cs lines i ll acc pr).1.scopeStack) := by
  obtain ⟨hl, hsa, hss, hcl⟩ := finalizeMacroCapture_fields cs lines i acc.1
  unfold closersStep
  by_cases hm : closerMatches pr.2.data ll = true
  · rw [if_pos hm]
    dsimp only
    by_cases hmac : pr.1 = ".macro"
    · rw [if_pos hmac]
      cases hp : popInnermost pr.1 (finalizeMacroCapture cs lines i acc.1).scopeStack with
      | some stk =>
        dsimp only
        refine ⟨hl, hsa, hcl, by simp, ?_⟩
        intro hs
        apply stackOk_of_subset _ hs
        intro f hf
        rw [← hss]
        exact popInnermost_subset pr.1 _ stk hp f hf
      | none =>
        dsimp only
        exact ⟨hl, hsa, hcl, fun h2 => ⟨hss, h2⟩, fun hs => hss ▸ hs⟩
    · rw [if_neg hmac]
      cases hp : popInnermost pr.1 acc.1.scopeStack with
      | some stk =>
        dsimp only
        refine ⟨rfl, rfl, rfl, by simp, ?_⟩
        intro hs
        exact stackOk_of_subset (popInnermost_subset pr.1 _ stk hp) hs
      | none =>
        dsimp only
        exact ⟨rfl, rfl, rfl, fun h2 => ⟨rfl, h2⟩, fun hs => hs⟩
  · rw [if_neg hm]
    exact ⟨rfl, rfl, rfl, fun h => ⟨rfl, h⟩, fun h => h⟩

theorem isWordChar_of_alpha (c : Char) (h : isAlphaChar c = true) : isWordChar c = true := by
  unfold isWordChar
  rw [h]
  rfl

theorem alpha_ne_underscore (c : Char) (h : isAlphaChar c = true) : ¬(c = '_') := by
  intro he
  rw [he] at h
  exact absurd h (by decide)

theorem namedOpenerMatch_shape (tok line : List Char) (nm args : List Char)
    (h : namedOpenerMatch tok line = some (nm, args)) :
    (∃ c rest, nm = c :: rest ∧ isAlphaChar c = true) ∧ ∀ ch ∈ nm, isWordChar ch = true := by
  unfold namedOpenerMatch at h
  split at h
  · exact absurd h (by simp)
  · rename_i c t
    by_cases ha : isAlphaChar c = true
    · rw [if_pos ha] at h
      dsimp only at h
      split at h
      · exact absurd h (by simp)
      · split at h
        · exact absurd h (by simp)
        · split at h
          · injection h with h2
            injection h2 with h3 h4
            subst h3
            constructor
            · refine ⟨c, t.takeWhile isWordChar, ?_, ha⟩
              exact List.takeWhile_cons_of_pos (isWordChar_of_alpha c ha)
            · intro ch hch
              exact List.mem_takeWhile_imp hch
          · exact absurd h (by simp)
    · rw [if_neg ha] at h
      exact absurd h (by simp)

theorem codeLabelMatch_shape (line nm : List Char) (h : codeLabelMatch line = some nm) :
    ∃ c rest, nm = c :: rest ∧ isAlphaChar c = true := by
  unfold codeLabelMatch at h
  split at h
  · exact absurd h (by simp)
  · rename_i c t
    by_cases ha : isAlphaChar c = true
    · rw [if_pos ha] at h
      dsimp only at h
      split at h
      · injection h with h2
        subst h2
        exact ⟨c, t.takeWhile isWordChar,
          List.takeWhile_cons_of_pos (isWordChar_of_alpha c ha), ha⟩
      · split at h
        · exact absurd h (by simp)
        · injection h with h2
          subst h2
          exact ⟨c, t.takeWhile isWordChar,
            List.takeWhile_cons_of_pos (isWordChar_of_alpha c ha), ha⟩
      · exact absurd h (by simp)
    · rw [if_neg ha] at h
      exact absurd h (by simp)

theorem codeLabelOpcodeMatch_shape (line nm opc : List Char)
    (h : codeLabelOpcodeMatch line = some (nm, opc)) :
    ∃ c rest, nm = c :: rest ∧ isAlphaChar c = true := by
  unfold codeLabelOpcodeMatch at h
  split at h
  · exact absurd h (by simp)
  · rename_i c t
    by_cases ha : isAlphaChar c = true
    · rw [if_pos ha] at h
      dsimp only at h
      split at h
      · exact absurd h (by simp)
      · split at h
        · split at h
          · injection h with h2
            injection h2 with h3 h4
            subst h3
            exact ⟨c, t.takeWhile isWordChar,
              List.takeWhile_cons_of_pos (isWordChar_of_alpha c ha), ha⟩
          · exact absurd h (by simp)
        · exact absurd h (by simp)
    · rw [if_neg ha] at h
      exact absurd h (by simp)

theorem localSymbolMatch_shape (line : List Char) (ws : Nat) (nm : List Char)
    (h : localSymbolMatch line = some (ws, nm)) :
    ∃ rest, nm = '_' :: rest := by
  unfold localSymbolMatch at h
  dsimp only at h
  split at h
  · rename_i tl heq
    have hw : isWordChar '_' = true := by decide
    split at h
    · injection h with h2
      injection h2 with h3 h4
      subst h4
      exact ⟨tl.takeWhile isWordChar, by rw [heq]; exact List.takeWhile_cons_of_pos hw⟩
    · split at h
      · injection h with h2
        injection h2 with h3 h4
        subst h4
        exact ⟨tl.takeWhile isWordChar, by rw [heq]; exact List.takeWhile_cons_of_pos hw⟩
      · exact absurd h (by simp)
  · exact absurd h (by simp)

theorem dataLabelMatch_shape (line nm : List Char) (h : dataLabelMatch line = some nm) :
    ∃ c rest, nm = c :: rest ∧ isAlphaChar c = true := by
  unfold dataLabelMatch at h
  split at h
  · exact absurd h (by simp)
  · rename_i c t
    by_cases ha : isAlphaChar c = true
    · rw [if_pos ha] at h
      dsimp only at h
      split at h
      · exact absurd h (by simp)
      · split at h
        · split at h
          · injection h with h2
            subst h2
            exact ⟨c, t.takeWhile isWordChar,
              List.takeWhile_cons_of_pos (isWordChar_of_alpha c ha), ha⟩
          · exact absurd h (by simp)
        · exact absurd h (by simp)
    · rw [if_neg ha] at h
      exact absurd h (by simp)

theorem macroLabelMatch_shape (line nm called : List Char)
    (h : macroLabelMatch line = some (nm, called)) :
    ∃ c rest, nm = c :: rest ∧ isAlphaChar c = true := by
  unfold macroLabelMatch at h
  split at h
  · exact absurd h (by simp)
  · rename_i c t
    by_cases ha : isAlphaChar c = true
    · rw [if_pos ha] at h
      dsimp only at h
      split at h
      · exact absurd h (by simp)
      · split at h
        · split at h
          · injection h with h2
            injection h2 with h3 h4
            subst h3
            exact ⟨c, t.takeWhile isWordChar,
              List.takeWhile_cons_of_pos (isWordChar_of_alpha c ha), ha⟩
          · exact absurd h (by simp)
        · exact absurd h (by simp)
    · rw [if_neg ha] at h
      exact absurd h (by simp)

theorem constAssignMatch_shape (line : List Char) (ws : Nat) (nm v : List Char)
    (h : constAssignMatch line = some (ws, nm, v)) :
    ∃ c rest, nm = c :: rest ∧ (isAlphaChar c = true ∨ c = '_') := by
  unfold constAssignMatch at h
  dsimp only at h
  split at h
  · rename_i c t heq
    by_cases ha : (isAlphaChar c || decide (c = '_')) = true
    · rw [if_pos ha] at h
      try dsimp only at h
      have hca : isAlphaChar c = true ∨ c = '_' := by
        rcases Bool.or_eq_true _ _ |>.mp ha with h1 | h1
        · exact Or.inl h1
        · exact Or.inr (of_decide_eq_true h1)
      have hw : isWordChar c = true := by
        rcases hca with h1 | h1
        · exact isWordChar_of_alpha c h1
        · rw [h1]; decide
      split at h
      · exact absurd h (by simp)
      · split at h
        · split at h
          · split at h
            · exact absurd h (by simp)
            · injection h with h2
              injection h2 with h3 h4
              injection h4 with h5 h6
              subst h5
              exact ⟨c, t.takeWhile isWordChar,
                by rw [heq]; exact List.takeWhile_cons_of_pos hw, hca⟩
          · injection h with h2
            injection h2 with h3 h4
            injection h4 with h5 h6
            subst h5
            exact ⟨c, t.takeWhile isWordChar,
              by rw [heq]; exact List.takeWhile_cons_of_pos hw, hca⟩
        · split at h
          · exact absurd h (by simp)
          · injection h with h2
            injection h2 with h3 h4
            injection h4 with h5 h6
            subst h5
            exact ⟨c, t.takeWhile isWordChar,
              by rw [heq]; exact List.takeWhile_cons_of_pos hw, hca⟩
    · rw [if_neg ha] at h
      exact absurd h (by simp)
  · exact absurd h (by simp)

theorem anonLabelMatch_shape (line : List Char) (ws : Nat) (run : List Char)
    (h : anonLabelMatch line = some (ws, run)) :
    run ≠ [] ∧ ∀ c ∈ run, c = '+' ∨ c = '-' := by
  simp only [anonLabelMatch] at h
  split at h
  · exact absurd h (by simp)
  · split at h
    · injection h with h2
      injection h2 with h3 h4
      subst h4
      rename_i hlen _
      constructor
      · intro he
        rw [he] at hlen
        exact hlen (by simp)
      · intro c hc
        have := List.mem_takeWhile_imp hc
        rcases Bool.or_eq_true _ _ |>.mp this with h1 | h1
        · exact Or.inl (of_decide_eq_true h1)
        · exact Or.inr (of_decide_eq_true h1)
    · exact absurd h (by simp)
/-! ## Per-line evolution of the parse state -/

/-- Within the processing of line `i`: labels are only appended (each shaped
per `QLabel` and placed on line `i`), `scopeAtLine` keys other than `i` keep
their values, the key list is preserved once `i` is present, and stack
well-formedness is preserved. -/
def Evolves (i : Nat) (st st' : ParseState) : Prop :=
  (∃ tail, st'.labels = st.labels ++ tail ∧
     ∀ l ∈ tail, QLabel l ∧ l.range.startPos.line = i) ∧
  (∀ j, ¬(j = i) → mapLookup st'.scopeAtLine j = mapLookup st.scopeAtLine j) ∧
  (i ∈ st.scopeAtLine.map Prod.fst →
     st'.scopeAtLine.map Prod.fst = st.scopeAtLine.map Prod.fst) ∧
  (StackOk st.scopeStack → StackOk st'.scopeStack)

theorem evolves_refl (i : Nat) (st : ParseState) : Evolves i st st :=
  ⟨⟨[], (List.append_nil _).symm, by simp⟩, fun _ _ => rfl, fun _ => rfl, fun h => h⟩

theorem evolves_trans {i : Nat} {s1 s2 s3 : ParseState}
    (h1 : Evolves i s1 s2) (h2 : Evolves i s2 s3) : Evolves i s1 s3 := by
  obtain ⟨⟨t1, ht1, hq1⟩, hl1, hk1, hs1⟩ := h1
  obtain ⟨⟨t2, ht2, hq2⟩, hl2, hk2, hs2⟩ := h2
  refine ⟨⟨t1 ++ t2, by rw [ht2, ht1, List.append_assoc], ?_⟩,
    fun j hj => (hl2 j hj).trans (hl1 j hj), fun hm => ?_, fun h => hs2 (hs1 h)⟩
  · intro l hl
    rcases List.mem_append.mp hl with h | h
    · exact hq1 l h
    · exact hq2 l h
  · have k1 := hk1 hm
    have k2 := hk2 (by rw [k1]; exact hm)
    rw [k2, k1]

/-- The entry recorded for line `i` agrees with the state's current scope
context (the re-recording discipline of `parseDocument`'s loop). -/
def GoodAt (i : Nat) (st : ParseState) : Prop :=
  mapLookup st.scopeAtLine i =
    some (LineScope.mk (getCurrentScopePath st.scopeStack) st.currentLocalScope)

theorem startsWithUnderscore_alpha (cs : Bool) (c : Char) (l : List Char)
    (h : isAlphaChar c = true) :
    startsWithUnderscore (normalizeName cs ⟨c :: l⟩) = false := by
  rw [startsWithUnderscore_normalize cs c l (Or.inl h)]
  show decide (c = '_') = false
  exact decide_eq_false (alpha_ne_underscore c h)

theorem startsWithUnderscore_under (cs : Bool) (l : List Char) :
    startsWithUnderscore (normalizeName cs ⟨'_' :: l⟩) = true := by
  rw [startsWithUnderscore_normalize cs '_' l (Or.inr rfl)]
  rfl

theorem normalizeName_no_dot (cs : Bool) (nm : List Char)
    (hword : ∀ ch ∈ nm, isWordChar ch = true) :
    ('.' : Char) ∉ (normalizeName cs ⟨nm⟩).data := by
  intro hd
  unfold normalizeName at hd
  cases cs with
  | true =>
    rw [if_pos rfl] at hd
    exact absurd (hword '.' hd) (by decide)
  | false =>
    rw [if_neg (by decide)] at hd
    obtain ⟨c, hcmem, hc⟩ := List.mem_map.mp hd
    have hcd : c = '.' := toLowerChar_eq_dot c hc
    rw [hcd] at hcmem
    exact absurd (hword '.' hcmem) (by decide)

theorem stackOk_push_named (stack : List ScopeFrame) (cs : Bool) (nm : List Char)
    (dir : String) (hword : ∀ ch ∈ nm, isWordChar ch = true) (h : StackOk stack) :
    StackOk (stack ++ [ScopeFrame.mk (some (normalizeName cs ⟨nm⟩)) dir]) := by
  intro f hf n hn
  rcases List.mem_append.mp hf with h1 | h1
  · exact h f h1 n hn
  · have hfe : f = ScopeFrame.mk (some (normalizeName cs ⟨nm⟩)) dir := by
      simpa using h1
    subst hfe
    injection hn with hn
    rw [← hn]
    exact normalizeName_no_dot cs nm hword

theorem stackOk_push_anon (stack : List ScopeFrame) (dir : String) (h : StackOk stack) :
    StackOk (stack ++ [ScopeFrame.mk none dir]) := by
  intro f hf n hn
  rcases List.mem_append.mp hf with h1 | h1
  · exact h f h1 n hn
  · have hfe : f = ScopeFrame.mk none dir := by simpa using h1
    subst hfe
    exact absurd hn (by simp)

/-- The combined effect of any state update that appends labels, keeps
`scopeAtLine` untouched and then re-records line `i`. -/
theorem evolves_of_append (i : Nat) (st S : ParseState) (tail : List LabelDefinition)
    (hl : S.labels = st.labels ++ tail)
    (hq : ∀ l ∈ tail, QLabel l ∧ l.range.startPos.line = i)
    (hsa : S.scopeAtLine = st.scopeAtLine)
    (hso : StackOk st.scopeStack → StackOk S.scopeStack) :
    Evolves i st (recordScope i S) ∧ GoodAt i (recordScope i S) := by
  obtain ⟨rl, rss, rcl, rmc, rsa⟩ := recordScope_fields i S
  refine ⟨⟨⟨tail, by rw [rl, hl], hq⟩, fun j hj => ?_, fun hm => ?_,
    fun h => rss ▸ hso h⟩, ?_⟩
  · rw [rsa, hsa]
    exact mapLookup_mapSet_ne _ i j _ hj
  · rw [rsa, hsa]
    exact mapSet_keys_mem _ i _ hm
  · show mapLookup (recordScope i S).scopeAtLine i = _
    rw [rsa]
    exact mapLookup_mapSet_self _ i _

theorem recordScope_evolves (i : Nat) (st : ParseState) :
    Evolves i st (recordScope i st) ∧ GoodAt i (recordScope i st) :=
  evolves_of_append i st st [] (List.append_nil _).symm (by simp) rfl (fun h => h)

theorem includePhase_evolves (r : String → Option String) (line : List Char)
    (i : Nat) (st : ParseState) :
    Evolves i st (includePhase r line st) ∧
    (GoodAt i st → GoodAt i (includePhase r line st)) := by
  obtain ⟨hl, hsa, hss, hcl, _⟩ := includePhase_fields r line st
  constructor
  · exact ⟨⟨[], by rw [hl, List.append_nil], by simp⟩, fun j hj => by rw [hsa],
      fun hm => by rw [hsa], fun h => hss ▸ h⟩
  · intro hg
    show mapLookup (includePhase r line st).scopeAtLine i = _
    rw [hsa, hss, hcl]
    exact hg

/-- The scope-closing loop never touches labels, `scopeAtLine` or the local
scope; it only shrinks the stack, and leaves it alone when no frame was
popped. -/
theorem closersFold_inv (cs : Bool) (lines : List (List Char)) (i : Nat)
    (ll : List Char) (st : ParseState) :
    (SCOPE_OPENERS.foldl (closersStep cs lines i ll) (st, false)).1.labels = st.labels ∧
    (SCOPE_OPENERS.foldl (closersStep cs lines i ll) (st, false)).1.scopeAtLine = st.scopeAtLine ∧
    (SCOPE_OPENERS.foldl (closersStep cs lines i ll) (st, false)).1.currentLocalScope
      = st.currentLocalScope ∧
    ((SCOPE_OPENERS.foldl (closersStep cs lines i ll) (st, false)).2 = false →
      (SCOPE_OPENERS.foldl (closersStep cs lines i ll) (st, false)).1.scopeStack
        = st.scopeStack) ∧
    (StackOk st.scopeStack →
      StackOk (SCOPE_OPENERS.foldl (closersStep cs lines i ll) (st, false)).1.scopeStack) := by
  refine foldl_preserve (closersStep cs lines i ll)
    (fun acc => acc.1.labels = st.labels ∧ acc.1.scopeAtLine = st.scopeAtLine ∧
      acc.1.currentLocalScope = st.currentLocalScope ∧
      (acc.2 = false → acc.1.scopeStack = st.scopeStack) ∧
      (StackOk st.scopeStack → StackOk acc.1.scopeStack))
    SCOPE_OPENERS (st, false) ?_ ⟨rfl, rfl, rfl, fun _ => rfl, fun h => h⟩
  intro acc pr _ hP
  obtain ⟨hl, hsa, hcl, hflag, hok⟩ := hP
  obtain ⟨gl, gsa, gcl, gflag, gok⟩ := closersStep_fields cs lines i ll acc pr
  refine ⟨gl.trans hl, gsa.trans hsa, gcl.trans hcl, ?_, fun h => gok (hok h)⟩
  intro h2
  obtain ⟨g1, g2⟩ := gflag h2
  exact g1.trans (hflag g2)

theorem openersStep_evolves (uri : String) (cs : Bool) (lines : List (List Char))
    (i : Nat) (line ll : List Char) (st : ParseState) (pr : String × String) :
    Evolves i st (openersStep uri cs lines i line ll st pr) ∧
    (GoodAt i st → GoodAt i (openersStep uri cs lines i line ll st pr)) := by
  unfold openersStep
  dsimp only
  cases hm : namedOpenerMatch pr.1.data line with
  | some p =>
    obtain ⟨nm, args⟩ := p
    obtain ⟨⟨c, restc, hnm, hca⟩, hword⟩ := namedOpenerMatch_shape _ _ _ _ hm
    dsimp only
    repeat' split
    all_goals
      refine And.imp id (fun g _ => g)
        (evolves_of_append i st _ _ rfl ?_ rfl ?_)
    all_goals first
      | (intro l hl
         rw [List.mem_singleton] at hl
         subst hl
         exact ⟨⟨fun _ => by
             rw [hnm]; exact (startsWithUnderscore_alpha cs c restc hca).symm,
           fun h2 => Bool.noConfusion h2⟩, rfl⟩)
      | (intro hok
         exact stackOk_push_named st.scopeStack cs nm pr.1 hword hok)
  | none =>
    dsimp only
    split
    · refine And.imp id (fun g _ => g)
        (evolves_of_append i st _ [] (List.append_nil _).symm (by simp) rfl ?_)
      intro hok
      exact stackOk_push_anon st.scopeStack pr.1 hok
    · exact ⟨evolves_refl i st, fun g => g⟩

theorem openersFold_evolves (uri : String) (cs : Bool) (lines : List (List Char))
    (i : Nat) (line ll : List Char) (st : ParseState) :
    Evolves i st (SCOPE_OPENERS.foldl (openersStep uri cs lines i line ll) st) ∧
    (GoodAt i st →
      GoodAt i (SCOPE_OPENERS.foldl (openersStep uri cs lines i line ll) st)) := by
  refine foldl_preserve (openersStep uri cs lines i line ll)
    (fun s => Evolves i st s ∧ (GoodAt i st → GoodAt i s))
    SCOPE_OPENERS st ?_ ⟨evolves_refl i st, fun g => g⟩
  intro s pr _ hP
  obtain ⟨hE, hG⟩ := openersStep_evolves uri cs lines i line ll s pr
  exact ⟨evolves_trans hP.1 hE, fun g => hG (hP.2 g)⟩
theorem tailPhase_evolves (uri : String) (cs : Bool) (i : Nat) (line : List Char)
    (st : ParseState) :
    Evolves i st (tailPhase uri cs i line st) ∧
    (GoodAt i st → GoodAt i (tailPhase uri cs i line st)) := by
  unfold tailPhase
  cases hd : dataLabelMatch line with
  | some nm =>
    obtain ⟨c, restc, hnm, hca⟩ := dataLabelMatch_shape _ _ hd
    dsimp only
    refine ⟨⟨⟨_, rfl, ?_⟩, fun j hj => rfl, fun hm => rfl, fun h => h⟩, fun g => g⟩
    intro l hl
    rw [List.mem_singleton] at hl
    subst hl
    exact ⟨⟨fun _ => by rw [hnm]; exact (startsWithUnderscore_alpha cs c restc hca).symm,
      fun h2 => Bool.noConfusion h2⟩, rfl⟩
  | none =>
    cases hmc : macroLabelMatch line with
    | some p =>
      obtain ⟨nm, called⟩ := p
      obtain ⟨c, restc, hnm, hca⟩ := macroLabelMatch_shape _ _ _ hmc
      dsimp only
      split
      · exact ⟨evolves_refl i st, fun g => g⟩
      · refine ⟨⟨⟨_, rfl, ?_⟩, fun j hj => rfl, fun hm => rfl, fun h => h⟩, fun g => g⟩
        intro l hl
        rw [List.mem_singleton] at hl
        subst hl
        exact ⟨⟨fun _ => by rw [hnm]; exact (startsWithUnderscore_alpha cs c restc hca).symm,
          fun h2 => Bool.noConfusion h2⟩, rfl⟩
    | none =>
      cases hcm : constAssignMatch line with
      | some t =>
        obtain ⟨ws, t2⟩ := t
        obtain ⟨nm, rawVal⟩ := t2
        obtain ⟨c, restc, hnm, hcau⟩ := constAssignMatch_shape _ _ _ _ hcm
        subst hnm
        dsimp only
        refine ⟨⟨⟨_, rfl, ?_⟩, fun j hj => rfl, fun hm => rfl, fun h => h⟩, fun g => g⟩
        intro l hl
        rw [List.mem_singleton] at hl
        subst hl
        refine ⟨⟨fun _ => ?_, fun h2 => Bool.noConfusion h2⟩, rfl⟩
        rcases hcau with hAl | hUn
        · have hcne : ¬(c = '_') := alpha_ne_underscore c hAl
          dsimp only
          split
          · rename_i heq
            injection heq with h1 _
            exact absurd h1 hcne
          · exact (startsWithUnderscore_alpha cs c restc hAl).symm
        · subst hUn
          exact (startsWithUnderscore_under cs restc).symm
      | none => exact ⟨evolves_refl i st, fun g => g⟩

theorem anonPhase_evolves (uri : String) (cs : Bool) (i : Nat) (line : List Char)
    (st : ParseState) :
    Evolves i st (anonPhase uri cs i line st) ∧
    (GoodAt i st → GoodAt i (anonPhase uri cs i line st)) := by
  unfold anonPhase
  cases ha : anonLabelMatch line with
  | some p =>
    obtain ⟨ws, run⟩ := p
    obtain ⟨hne, hrun⟩ := anonLabelMatch_shape _ _ _ ha
    dsimp only
    split
    · refine ⟨⟨⟨_, rfl, ?_⟩, fun j hj => rfl, fun hm => rfl, fun h => h⟩, fun g => g⟩
      intro l hl
      obtain ⟨j, hj, hlj⟩ := List.mem_map.mp hl
      subst hlj
      refine ⟨⟨fun h1 => Bool.noConfusion h1, fun _ => ⟨rfl, ?_⟩⟩, rfl⟩
      have hd : run.headD '+' = '+' ∨ run.headD '+' = '-' := by
        cases hr : run with
        | nil => exact absurd hr hne
        | cons c0 t =>
          exact hrun c0 (by rw [hr]; exact List.mem_cons_self c0 t)
      rcases hd with h | h
      · exact Or.inl (by rw [h])
      · exact Or.inr (by rw [h])
    · exact tailPhase_evolves uri cs i line st
  | none => exact tailPhase_evolves uri cs i line st

theorem localPhase_evolves (uri : String) (cs : Bool) (i : Nat) (line : List Char)
    (st : ParseState) :
    Evolves i st (localPhase uri cs i line st) ∧
    (GoodAt i st → GoodAt i (localPhase uri cs i line st)) := by
  unfold localPhase
  cases hl : localSymbolMatch line with
  | some p =>
    obtain ⟨ws, nm⟩ := p
    obtain ⟨restc, hnm⟩ := localSymbolMatch_shape _ _ _ hl
    subst hnm
    dsimp only
    refine ⟨⟨⟨_, rfl, ?_⟩, fun j hj => rfl, fun hm => rfl, fun h => h⟩, fun g => g⟩
    intro l hl2
    rw [List.mem_singleton] at hl2
    subst hl2
    exact ⟨⟨fun _ => (startsWithUnderscore_under cs restc).symm,
      fun h2 => Bool.noConfusion h2⟩, rfl⟩
  | none => exact anonPhase_evolves uri cs i line st

theorem pushCodeLabel_evolves (uri : String) (cs : Bool) (i : Nat) (nm : List Char)
    (st : ParseState) (c : Char) (restc : List Char) (hnm : nm = c :: restc)
    (hca : isAlphaChar c = true) :
    Evolves i st (pushCodeLabel uri cs i nm st) ∧ GoodAt i (pushCodeLabel uri cs i nm st) := by
  unfold pushCodeLabel
  dsimp only
  refine ⟨⟨⟨_, rfl, ?_⟩, fun j hj => mapLookup_mapSet_ne _ i j _ hj,
    fun hm => mapSet_keys_mem _ i _ hm, fun h => h⟩, mapLookup_mapSet_self _ i _⟩
  intro l hl
  rw [List.mem_singleton] at hl
  subst hl
  exact ⟨⟨fun _ => by rw [hnm]; exact (startsWithUnderscore_alpha cs c restc hca).symm,
    fun h2 => Bool.noConfusion h2⟩, rfl⟩

theorem labelPhase_evolves (uri : String) (cs : Bool) (i : Nat) (line : List Char)
    (st : ParseState) :
    Evolves i st (labelPhase uri cs i line st) ∧
    (GoodAt i st → GoodAt i (labelPhase uri cs i line st)) := by
  unfold labelPhase
  cases hc : codeLabelMatch line with
  | some nm =>
    obtain ⟨c, restc, hnm, hca⟩ := codeLabelMatch_shape _ _ hc
    exact And.imp id (fun g _ => g) (pushCodeLabel_evolves uri cs i nm st c restc hnm hca)
  | none =>
    cases hco : codeLabelOpcodeMatch line with
    | some p =>
      obtain ⟨nm, opc⟩ := p
      obtain ⟨c, restc, hnm, hca⟩ := codeLabelOpcodeMatch_shape _ _ _ hco
      dsimp only
      split
      · exact And.imp id (fun g _ => g) (pushCodeLabel_evolves uri cs i nm st c restc hnm hca)
      · exact localPhase_evolves uri cs i line st
    | none => exact localPhase_evolves uri cs i line st

/-- The master per-line lemma: one loop iteration of `parseDocument` evolves
the state, leaves the line's own `scopeAtLine` entry in sync with the final
scope context, and extends the key list with exactly the line number (when
new). -/
theorem processLine_evolves (uri : String) (cs : Bool) (r : String → Option String)
    (lines : List (List Char)) (st : ParseState) (i : Nat) (line : List Char) :
    Evolves i st (processLine uri cs r lines st i line) ∧
    GoodAt i (processLine uri cs r lines st i line) ∧
    (processLine uri cs r lines st i line).scopeAtLine.map Prod.fst =
      (if i ∈ st.scopeAtLine.map Prod.fst then st.scopeAtLine.map Prod.fst
       else st.scopeAtLine.map Prod.fst ++ [i]) := by
  have hrec := recordScope_evolves i st
  have hkeys1 : (recordScope i st).scopeAtLine.map Prod.fst =
      (if i ∈ st.scopeAtLine.map Prod.fst then st.scopeAtLine.map Prod.fst
       else st.scopeAtLine.map Prod.fst ++ [i]) := by
    by_cases hmem : i ∈ st.scopeAtLine.map Prod.fst
    · rw [if_pos hmem]
      exact mapSet_keys_mem _ i _ hmem
    · rw [if_neg hmem]
      exact mapSet_keys_new _ i _ hmem
  have hmem1 : i ∈ (recordScope i st).scopeAtLine.map Prod.fst := mem_keys_mapSet _ i _
  unfold processLine
  try dsimp only
  by_cases hb : isBlankOrComment line = true
  · rw [if_pos hb]
    exact ⟨hrec.1, hrec.2, hkeys1⟩
  · rw [if_neg hb]
    try dsimp only
    have hinc := includePhase_evolves r line i (recordScope i st)
    obtain ⟨il, isa, iss, ils, _⟩ := includePhase_fields r line (recordScope i st)
    have hmem2 : i ∈ (includePhase r line (recordScope i st)).scopeAtLine.map Prod.fst := by
      rw [isa]
      exact hmem1
    obtain ⟨cl1, cl2, cl3, cl4, cl5⟩ := closersFold_inv cs lines i (List.map toLowerChar line)
      (includePhase r line (recordScope i st))
    have hEc : Evolves i (includePhase r line (recordScope i st))
        (SCOPE_OPENERS.foldl (closersStep cs lines i (List.map toLowerChar line))
          (includePhase r line (recordScope i st), false)).1 :=
      ⟨⟨[], by rw [cl1, List.append_nil], by simp⟩, fun j hj => by rw [cl2],
        fun hm => by rw [cl2], cl5⟩
    have hmem3 : i ∈ (SCOPE_OPENERS.foldl (closersStep cs lines i (List.map toLowerChar line))
        (includePhase r line (recordScope i st), false)).1.scopeAtLine.map Prod.fst := by
      rw [cl2]
      exact hmem2
    have hkeysUpTo : (SCOPE_OPENERS.foldl (closersStep cs lines i (List.map toLowerChar line))
        (includePhase r line (recordScope i st), false)).1.scopeAtLine.map Prod.fst =
        (if i ∈ st.scopeAtLine.map Prod.fst then st.scopeAtLine.map Prod.fst
         else st.scopeAtLine.map Prod.fst ++ [i]) := by
      rw [cl2, isa]
      exact hkeys1
    by_cases hp : (SCOPE_OPENERS.foldl (closersStep cs lines i (List.map toLowerChar line))
        (includePhase r line (recordScope i st), false)).2 = true
    · rw [if_pos hp]
      have hrec2 := recordScope_evolves i
        (SCOPE_OPENERS.foldl (closersStep cs lines i (List.map toLowerChar line))
          (includePhase r line (recordScope i st), false)).1
      refine ⟨evolves_trans (evolves_trans hrec.1 hinc.1) (evolves_trans hEc hrec2.1),
        hrec2.2, ?_⟩
      rw [hrec2.1.2.2.1 hmem3]
      exact hkeysUpTo
    · rw [if_neg hp]
      have hp2 : (SCOPE_OPENERS.foldl (closersStep cs lines i (List.map toLowerChar line))
          (includePhase r line (recordScope i st), false)).2 = false := by
        cases h2 : (SCOPE_OPENERS.foldl (closersStep cs lines i (List.map toLowerChar line))
            (includePhase r line (recordScope i st), false)).2 with
        | false => rfl
        | true => exact absurd h2 hp
      have hgood3 : GoodAt i (SCOPE_OPENERS.foldl
          (closersStep cs lines i (List.map toLowerChar line))
          (includePhase r line (recordScope i st), false)).1 := by
        show mapLookup _ i = _
        rw [cl2, cl4 hp2, cl3]
        exact hinc.2 hrec.2
      have hof := openersFold_evolves uri cs lines i line (List.map toLowerChar line)
        (SCOPE_OPENERS.foldl (closersStep cs lines i (List.map toLowerChar line))
          (includePhase r line (recordScope i st), false)).1
      have hlp := labelPhase_evolves uri cs i line
        (SCOPE_OPENERS.foldl (openersStep uri cs lines i line (List.map toLowerChar line))
          (SCOPE_OPENERS.foldl (closersStep cs lines i (List.map toLowerChar line))
            (includePhase r line (recordScope i st), false)).1)
      refine ⟨evolves_trans (evolves_trans hrec.1 hinc.1)
        (evolves_trans hEc (evolves_trans hof.1 hlp.1)), hlp.2 (hof.2 hgood3), ?_⟩
      have hmem4 : i ∈ (SCOPE_OPENERS.foldl
          (openersStep uri cs lines i line (List.map toLowerChar line))
          (SCOPE_OPENERS.foldl (closersStep cs lines i (List.map toLowerChar line))
            (includePhase r line (recordScope i st), false)).1).scopeAtLine.map Prod.fst := by
        rw [hof.1.2.2.1 hmem3]
        exact hmem3
      rw [hlp.1.2.2.1 hmem4, hof.1.2.2.1 hmem3]
      exact hkeysUpTo
/-! ## Folding the loop over all lines -/

/-- Scanning lines numbered from `s` only appends labels (each well shaped
and placed within the scanned line range), never touches `scopeAtLine` keys
below `s`, and preserves stack well-formedness. -/
theorem foldLines_evolve (uri : String) (cs : Bool) (r : String → Option String)
    (all : List (List Char)) (ls : List (List Char)) :
    ∀ s st,
      (∃ tail, (foldLines uri cs r all ls s st).labels = st.labels ++ tail ∧
        ∀ l ∈ tail, QLabel l ∧ s ≤ l.range.startPos.line ∧
          l.range.startPos.line < s + ls.length) ∧
      (∀ j, j < s → mapLookup (foldLines uri cs r all ls s st).scopeAtLine j
          = mapLookup st.scopeAtLine j) ∧
      (StackOk st.scopeStack → StackOk (foldLines uri cs r all ls s st).scopeStack) := by
  induction ls with
  | nil =>
    intro s st
    exact ⟨⟨[], (List.append_nil _).symm, by simp⟩, fun j hj => rfl, fun h => h⟩
  | cons a rest ih =>
    intro s st
    rw [show foldLines uri cs r all (a :: rest) s st
        = foldLines uri cs r all rest (s+1) (processLine uri cs r all st s a) from rfl]
    have hP := processLine_evolves uri cs r all st s a
    obtain ⟨⟨t1, ht1, hq1⟩, hlk1, hk1, hok1⟩ := hP.1
    obtain ⟨⟨t2, ht2, hq2⟩, hlk2, hok2⟩ := ih (s+1) (processLine uri cs r all st s a)
    refine ⟨⟨t1 ++ t2, by rw [ht2, ht1, List.append_assoc], ?_⟩, ?_, fun h => hok2 (hok1 h)⟩
    · intro l hl
      rcases List.mem_append.mp hl with h | h
      · obtain ⟨hq, hline⟩ := hq1 l h
        refine ⟨hq, by rw [hline], ?_⟩
        rw [hline]
        simp only [List.length_cons]
        omega
      · obtain ⟨hq, hlo, hhi⟩ := hq2 l h
        refine ⟨hq, by omega, ?_⟩
        simp only [List.length_cons]
        omega
    · intro j hj
      rw [hlk2 j (Nat.lt_succ_of_lt hj)]
      exact hlk1 j (by omega)

theorem foldLines_append_eq (uri : String) (cs : Bool) (r : String → Option String)
    (all : List (List Char)) (l1 : List (List Char)) :
    ∀ l2 s st, foldLines uri cs r all (l1 ++ l2) s st
      = foldLines uri cs r all l2 (s + l1.length) (foldLines uri cs r all l1 s st) := by
  induction l1 with
  | nil =>
    intro l2 s st
    simp [foldLines]
  | cons a t ih =>
    intro l2 s st
    show foldLines uri cs r all (t ++ l2) (s+1) (processLine uri cs r all st s a) = _
    rw [ih]
    rw [show s + 1 + t.length = s + (a :: t).length from by
      simp only [List.length_cons]; omega]
    rfl

/-- The parse state after scanning the first `k` lines of the document (the
intermediate loop state of `parseDocument`). -/
def stateUpTo (uri : String) (cs : Bool) (r : String → Option String)
    (all : List (List Char)) (k : Nat) : ParseState :=
  foldLines uri cs r all (all.take k) 0 initState

theorem stateUpTo_succ (uri : String) (cs : Bool) (r : String → Option String)
    (all : List (List Char)) (k : Nat) (hk : k < all.length) :
    stateUpTo uri cs r all (k+1)
      = processLine uri cs r all (stateUpTo uri cs r all k) k (all.get ⟨k, hk⟩) := by
  unfold stateUpTo
  have htake : all.take (k+1) = all.take k ++ [all.get ⟨k, hk⟩] := by
    rw [List.take_succ]
    congr 1
    rw [List.getElem?_eq_getElem hk]
    rfl
  rw [htake, foldLines_append_eq]
  have hlen : (all.take k).length = k := by
    rw [List.length_take]
    omega
  rw [hlen]
  show processLine uri cs r all (foldLines uri cs r all (all.take k) 0 initState)
    (0 + k) (all.get ⟨k, hk⟩) = _
  rw [Nat.zero_add]

/-- The running invariant of the loop: after `k` lines the key list of
`scopeAtLine` is exactly `[0, …, k-1]` and every named frame on the stack
carries a dot-free name. -/
theorem stateUpTo_inv (uri : String) (cs : Bool) (r : String → Option String)
    (all : List (List Char)) : ∀ k, k ≤ all.length →
    (stateUpTo uri cs r all k).scopeAtLine.map Prod.fst = List.range k ∧
    StackOk (stateUpTo uri cs r all k).scopeStack := by
  intro k
  induction k with
  | zero =>
    intro _
    exact ⟨rfl, fun f hf nm hnm => absurd hf (List.not_mem_nil f)⟩
  | succ n ih =>
    intro hk
    have hlt : n < all.length := hk
    obtain ⟨hkeys, hok⟩ := ih (Nat.le_of_lt hlt)
    rw [stateUpTo_succ uri cs r all n hlt]
    have hP := processLine_evolves uri cs r all (stateUpTo uri cs r all n) n
      (all.get ⟨n, hlt⟩)
    constructor
    · rw [hP.2.2, hkeys, if_neg (by simp)]
      exact (List.range_succ n).symm
    · exact hP.1.2.2.2 hok

theorem stateUpTo_goodAt (uri : String) (cs : Bool) (r : String → Option String)
    (all : List (List Char)) (k : Nat) (hk : k < all.length) :
    GoodAt k (stateUpTo uri cs r all (k+1)) := by
  rw [stateUpTo_succ uri cs r all k hk]
  exact (processLine_evolves uri cs r all (stateUpTo uri cs r all k) k
    (all.get ⟨k, hk⟩)).2.1

theorem parseStateOf_eq_drop (uri text : String) (cs : Bool)
    (r : String → Option String) (i : Nat) :
    parseStateOf uri text cs r =
      foldLines uri cs r (splitLines text.data)
        ((splitLines text.data).drop (i+1)) (i+1)
        (stateUpTo uri cs r (splitLines text.data) (i+1)) := by
  unfold parseStateOf stateUpTo
  have h1 : foldLines uri cs r (splitLines text.data) (splitLines text.data) 0 initState
      = foldLines uri cs r (splitLines text.data)
          ((splitLines text.data).take (i+1) ++ (splitLines text.data).drop (i+1))
          0 initState := by
    rw [List.take_append_drop]
  rw [h1, foldLines_append_eq]
  rw [show 0 + ((splitLines text.data).take (i+1)).length
      = min (i+1) (splitLines text.data).length from by
    rw [List.length_take]; omega]
  by_cases hle : i + 1 ≤ (splitLines text.data).length
  · rw [Nat.min_eq_left hle]
  · have hlen : (splitLines text.data).length ≤ i + 1 := by omega
    rw [Nat.min_eq_right hlen]
    rw [List.drop_eq_nil_of_le hlen]
    rfl

/-! ## Dot-segment counting for the scope path (claim C6) -/

theorem data_append_eq (a b : String) : (a ++ b).data = a.data ++ b.data := rfl

theorem dotCount_append (a b : String) : dotCount (a ++ b) = dotCount a + dotCount b := by
  show ((a ++ b).data).count '.' = a.data.count '.' + b.data.count '.'
  rw [data_append_eq]
  exact List.count_append _ _ _

theorem dotCount_joinDots : ∀ l : List String, (∀ s ∈ l, ('.' : Char) ∉ s.data) →
    l ≠ [] → dotCount (joinDots l) = l.length - 1
  | [], _, hne => absurd rfl hne
  | [a], h, _ => by
    show dotCount a = 0
    exact List.count_eq_zero_of_not_mem (h a (by simp))
  | a :: b :: rest, h, _ => by
    show dotCount (a ++ "." ++ joinDots (b :: rest)) = (a :: b :: rest).length - 1
    rw [dotCount_append, dotCount_append]
    rw [dotCount_joinDots (b :: rest) (fun s hs => h s (by simp [hs])) (by simp)]
    have ha : dotCount a = 0 := List.count_eq_zero_of_not_mem (h a (by simp))
    rw [ha, show dotCount "." = 1 from rfl]
    simp only [List.length_cons]
    omega

/-- The claim's measure: number of dot-separated segments of an optional
scope path (`none` has zero segments). -/
def pathSegments : Option String → Nat
  | none => 0
  | some p => dotCount p + 1

/-- Number of named frames on the scope stack. -/
def namedCount (stack : List ScopeFrame) : Nat :=
  (stack.filterMap (fun f => f.name)).length

theorem pathSegments_getCurrentScopePath (stack : List ScopeFrame) (h : StackOk stack) :
    pathSegments (getCurrentScopePath stack) = namedCount stack := by
  unfold getCurrentScopePath namedCount
  by_cases hl : (stack.filterMap (fun f => f.name)).length > 0
  · rw [if_pos hl]
    show dotCount (joinDots (stack.filterMap (fun f => f.name))) + 1 = _
    have hnodot : ∀ s ∈ stack.filterMap (fun f => f.name), ('.' : Char) ∉ s.data := by
      intro s hs
      obtain ⟨f, hf, hfs⟩ := List.mem_filterMap.mp hs
      exact h f hf s hfs
    rw [dotCount_joinDots _ hnodot (by
      intro he
      rw [he] at hl
      exact absurd hl (by simp))]
    omega
  · rw [if_neg hl]
    show 0 = (stack.filterMap (fun f => f.name)).length
    omega
/-- C6: for every document, the `scopeAtLine` table produced by
`parseDocument` has exactly one entry per source line — its key list is
exactly `[0, …, n-1]` in order — and the scope path recorded for line `i`
has exactly as many dot-separated segments as there are named scope frames
open after line `i` was processed (anonymous frames contribute no segment;
zero named frames yields the `none` path, counted as zero segments). -/
theorem c6_scope_at_line (uri text : String) (cs : Bool) (r : String → Option String) :
    (parseDocument uri text cs r).scopeAtLine.map Prod.fst
        = List.range (splitLines text.data).length ∧
    ∀ i, i < (splitLines text.data).length →
      ∃ sc, mapLookup (parseDocument uri text cs r).scopeAtLine i = some sc ∧
        pathSegments sc.scopePath =
          namedCount (stateUpTo uri cs r (splitLines text.data) (i+1)).scopeStack := by
  have hPS : parseStateOf uri text cs r
      = stateUpTo uri cs r (splitLines text.data) (splitLines text.data).length := by
    unfold parseStateOf stateUpTo
    rw [List.take_length]
  constructor
  · show (parseStateOf uri text cs r).scopeAtLine.map Prod.fst = _
    rw [hPS]
    exact (stateUpTo_inv uri cs r (splitLines text.data) (splitLines text.data).length
      (le_refl _)).1
  · intro i hi
    have hGA : GoodAt i (stateUpTo uri cs r (splitLines text.data) (i+1)) :=
      stateUpTo_goodAt uri cs r (splitLines text.data) i hi
    have hstab := (foldLines_evolve uri cs r (splitLines text.data)
      ((splitLines text.data).drop (i+1)) (i+1)
      (stateUpTo uri cs r (splitLines text.data) (i+1))).2.1 i (Nat.lt_succ_self i)
    refine ⟨LineScope.mk
      (getCurrentScopePath (stateUpTo uri cs r (splitLines text.data) (i+1)).scopeStack)
      (stateUpTo uri cs r (splitLines text.data) (i+1)).currentLocalScope, ?_, ?_⟩
    · show mapLookup (parseStateOf uri text cs r).scopeAtLine i = _
      rw [parseStateOf_eq_drop uri text cs r i, hstab]
      exact hGA
    · exact pathSegments_getCurrentScopePath _
        ((stateUpTo_inv uri cs r (splitLines text.data) (i+1) hi).2)

theorem c6_scope_at_line_witness :
    ∃ sc, mapLookup (parseDocument "file:///c6" "s .block\n nop\n.bend" true
        (fun _ => none)).scopeAtLine 1 = some sc ∧
      pathSegments sc.scopePath =
        namedCount (stateUpTo "file:///c6" true (fun _ => none)
          (splitLines ("s .block\n nop\n.bend" : String).data) 2).scopeStack :=
  (c6_scope_at_line "file:///c6" "s .block\n nop\n.bend" true (fun _ => none)).2 1
    (by decide)

/-- C9: the claim as stated is wrong: anonymous labels are flagged local although
their stored name is `+` or `-`, which does not begin with `_`.  The
document consisting of the single line `+` produces such a label. -/
theorem c9_local_flag_counterexample :
    ¬(∀ l ∈ (parseDocument "file:///c9" "+" true (fun _ => none)).labels,
        l.isLocal = startsWithUnderscore l.name) := by decide

/-- C9 (amended): every non-anonymous label produced by `parseDocument`
has its local flag set exactly when its stored name begins with `_`; every
anonymous label is flagged local and its stored name is `+` or `-`. -/
theorem c9_local_flag_amended (uri text : String) (cs : Bool)
    (r : String → Option String) (l : LabelDefinition)
    (h : l ∈ (parseDocument uri text cs r).labels) :
    (l.isAnonymous = false → l.isLocal = startsWithUnderscore l.name) ∧
    (l.isAnonymous = true → l.isLocal = true ∧ (l.name = "+" ∨ l.name = "-")) := by
  have hl : l ∈ (foldLines uri cs r (splitLines text.data) (splitLines text.data)
      0 initState).labels := h
  obtain ⟨tail, ht, hq⟩ := (foldLines_evolve uri cs r (splitLines text.data)
    (splitLines text.data) 0 initState).1
  rw [ht] at hl
  rcases List.mem_append.mp hl with h1 | h1
  · exact absurd h1 (List.not_mem_nil l)
  · exact (hq l h1).1

/-- The label recorded for the document `"_x = 1"`. -/
def c9WitnessLabel : LabelDefinition :=
  { name := "_x", originalName := "_x", uri := "file:///w9",
    range := rangeAt 0 0 2, scopePath := none, localScope := none, isLocal := true }

theorem c9_local_flag_amended_witness :
    c9WitnessLabel ∈ (parseDocument "file:///w9" "_x = 1" true (fun _ => none)).labels ∧
    (c9WitnessLabel.isAnonymous = false →
      c9WitnessLabel.isLocal = startsWithUnderscore c9WitnessLabel.name) :=
  ⟨by decide, (c9_local_flag_amended "file:///w9" "_x = 1" true (fun _ => none)
    c9WitnessLabel (by decide)).1⟩
/-! ## Inertness facts for anonymous-label lines (claim C4) -/

theorem isSpaceChar_cases (c : Char) (h : isSpaceChar c = true) :
    c = ' ' ∨ c = '\t' ∨ c = '\n' ∨ c = '\r' ∨ c = Char.ofNat 11 ∨ c = Char.ofNat 12 := by
  unfold isSpaceChar at h
  simp only [Bool.or_eq_true, decide_eq_true_eq] at h
  tauto

theorem space_char_shape (c : Char) (h : isSpaceChar c = true) :
    isAlphaChar c = false ∧ toLowerChar c = c := by
  rcases isSpaceChar_cases c h with h1 | h1 | h1 | h1 | h1 | h1 <;> subst h1 <;>
    exact ⟨by decide, by decide⟩

theorem pm_char_shape (c : Char) (h : c = '+' ∨ c = '-') :
    isAlphaChar c = false ∧ ¬(c = '_') ∧ ¬(c = ';') ∧ isSpaceChar c = false ∧
      toLowerChar c = c ∧ ¬(toLowerChar c = '.') := by
  rcases h with h | h <;> subst h <;>
    exact ⟨by decide, by decide, by decide, by decide, by decide, by decide⟩

theorem takeWhile_append_all (p : Char → Bool) : ∀ (l1 l2 : List Char),
    (∀ c ∈ l1, p c = true) →
    (match l2 with | [] => True | c :: _ => p c = false) →
    (l1 ++ l2).takeWhile p = l1
  | [], [], _, _ => rfl
  | [], c :: t, _, h2 => by
    show (c :: t).takeWhile p = []
    rw [List.takeWhile_cons, if_neg (by simp [h2])]
  | a :: t, l2, h1, h2 => by
    show ((a :: (t ++ l2)).takeWhile p) = a :: t
    rw [List.takeWhile_cons, if_pos (by simp [h1 a (by simp)])]
    rw [takeWhile_append_all p t l2 (fun c hc => h1 c (by simp [hc])) h2]

theorem dropWhile_append_all (p : Char → Bool) : ∀ (l1 l2 : List Char),
    (∀ c ∈ l1, p c = true) →
    (match l2 with | [] => True | c :: _ => p c = false) →
    (l1 ++ l2).dropWhile p = l2
  | [], [], _, _ => rfl
  | [], c :: t, _, h2 => by
    show (c :: t).dropWhile p = c :: t
    rw [List.dropWhile_cons, if_neg (by simp [h2])]
  | a :: t, l2, h1, h2 => by
    show ((a :: (t ++ l2)).dropWhile p) = l2
    rw [List.dropWhile_cons, if_pos (by simp [h1 a (by simp)])]
    rw [dropWhile_append_all p t l2 (fun c hc => h1 c (by simp [hc])) h2]

theorem anonRest_head_not_pm (rest : List Char) :
    anonRestOk rest = true →
    (match rest with
     | [] => True
     | c :: _ => (decide (c = '+') || decide (c = '-')) = false) := by
  intro h
  cases rest with
  | nil => trivial
  | cons c t =>
    show (decide (c = '+') || decide (c = '-')) = false
    unfold anonRestOk at h
    have hne : ¬(c = '+') ∧ ¬(c = '-') := by
      rcases Bool.or_eq_true _ _ |>.mp h with h1 | h1
      · rcases Bool.or_eq_true _ _ |>.mp h1 with h2 | h2
        · rcases isSpaceChar_cases c h2 with h3 | h3 | h3 | h3 | h3 | h3 <;> subst h3 <;>
            exact ⟨by decide, by decide⟩
        · have : c = ';' := of_decide_eq_true h2
          subst this
          exact ⟨by decide, by decide⟩
      · have : c = ':' := of_decide_eq_true (Bool.and_eq_true _ _ |>.mp h1).1
        subst this
        exact ⟨by decide, by decide⟩
    rw [decide_eq_false hne.1, decide_eq_false hne.2]
    rfl

theorem head_alpha_false (ws run rest : List Char)
    (hws : ∀ c ∈ ws, isSpaceChar c = true)
    (hrun : ∀ c ∈ run, c = '+' ∨ c = '-') (hne : run ≠ []) :
    match ws ++ (run ++ rest) with
    | [] => True
    | c :: _ => isAlphaChar c = false := by
  cases ws with
  | cons a t => exact (space_char_shape a (hws a (by simp))).1
  | nil =>
    cases hr : run with
    | nil => exact absurd hr hne
    | cons c0 t0 =>
      have h0 : c0 ∈ run := by rw [hr]; exact List.mem_cons_self c0 t0
      show isAlphaChar c0 = false
      exact (pm_char_shape c0 (hrun c0 h0)).1

theorem namedOpenerMatch_none_of_head (tok : List Char) : ∀ (line : List Char),
    (match line with | [] => True | c :: _ => isAlphaChar c = false) →
    namedOpenerMatch tok line = none
  | [], _ => rfl
  | c :: t, h => by
    unfold namedOpenerMatch
    dsimp only
    rw [if_neg (show ¬(isAlphaChar c = true) from by simp [show isAlphaChar c = false from h])]

theorem codeLabelMatch_none_of_head : ∀ (line : List Char),
    (match line with | [] => True | c :: _ => isAlphaChar c = false) →
    codeLabelMatch line = none
  | [], _ => rfl
  | c :: t, h => by
    unfold codeLabelMatch
    dsimp only
    rw [if_neg (show ¬(isAlphaChar c = true) from by simp [show isAlphaChar c = false from h])]

theorem codeLabelOpcodeMatch_none_of_head : ∀ (line : List Char),
    (match line with | [] => True | c :: _ => isAlphaChar c = false) →
    codeLabelOpcodeMatch line = none
  | [], _ => rfl
  | c :: t, h => by
    unfold codeLabelOpcodeMatch
    dsimp only
    rw [if_neg (show ¬(isAlphaChar c = true) from by simp [show isAlphaChar c = false from h])]

theorem dataLabelMatch_none_of_head : ∀ (line : List Char),
    (match line with | [] => True | c :: _ => isAlphaChar c = false) →
    dataLabelMatch line = none
  | [], _ => rfl
  | c :: t, h => by
    unfold dataLabelMatch
    dsimp only
    rw [if_neg (show ¬(isAlphaChar c = true) from by simp [show isAlphaChar c = false from h])]

theorem macroLabelMatch_none_of_head : ∀ (line : List Char),
    (match line with | [] => True | c :: _ => isAlphaChar c = false) →
    macroLabelMatch line = none
  | [], _ => rfl
  | c :: t, h => by
    unfold macroLabelMatch
    dsimp only
    rw [if_neg (show ¬(isAlphaChar c = true) from by simp [show isAlphaChar c = false from h])]

theorem isBlankOrComment_false_of_shape (ws run rest : List Char)
    (hws : ∀ c ∈ ws, isSpaceChar c = true)
    (hrun : ∀ c ∈ run, c = '+' ∨ c = '-') (hne : run ≠ []) :
    isBlankOrComment (ws ++ (run ++ rest)) = false := by
  cases hr : run with
  | nil => exact absurd hr hne
  | cons c0 t0 =>
    have hc0 := pm_char_shape c0 (hrun c0 (by rw [hr]; exact List.mem_cons_self c0 t0))
    unfold isBlankOrComment
    rw [dropWhile_append_all isSpaceChar ws ((c0 :: t0) ++ rest) hws hc0.2.2.2.1]
    exact decide_eq_false hc0.2.2.1

theorem localSymbolMatch_none_of_shape (ws run rest : List Char)
    (hws : ∀ c ∈ ws, isSpaceChar c = true)
    (hrun : ∀ c ∈ run, c = '+' ∨ c = '-') (hne : run ≠ []) :
    localSymbolMatch (ws ++ (run ++ rest)) = none := by
  cases hr : run with
  | nil => exact absurd hr hne
  | cons c0 t0 =>
    have hc0 := pm_char_shape c0 (hrun c0 (by rw [hr]; exact List.mem_cons_self c0 t0))
    simp only [localSymbolMatch]
    rw [takeWhile_append_all isSpaceChar ws ((c0 :: t0) ++ rest) hws hc0.2.2.2.1]
    rw [List.drop_left]
    split
    · rename_i heq
      rw [List.cons_append] at heq
      injection heq with h1 _
      exact absurd h1 hc0.2.1
    · rfl

theorem constAssignMatch_none_of_shape (ws run rest : List Char)
    (hws : ∀ c ∈ ws, isSpaceChar c = true)
    (hrun : ∀ c ∈ run, c = '+' ∨ c = '-') (hne : run ≠ []) :
    constAssignMatch (ws ++ (run ++ rest)) = none := by
  cases hr : run with
  | nil => exact absurd hr hne
  | cons c0 t0 =>
    have hc0 := pm_char_shape c0 (hrun c0 (by rw [hr]; exact List.mem_cons_self c0 t0))
    simp only [constAssignMatch]
    rw [takeWhile_append_all isSpaceChar ws ((c0 :: t0) ++ rest) hws hc0.2.2.2.1]
    rw [List.drop_left]
    rw [List.cons_append]
    dsimp only
    rw [if_neg (show ¬((isAlphaChar c0 || decide (c0 = '_')) = true) from by
      simp [hc0.1, hc0.2.1])]

theorem tokenHere_dot_false (tok : List Char) (c : Char) (t : List Char)
    (htok : tok.headD ' ' = '.') (hc : ¬(toLowerChar c = '.')) :
    tokenHere tok (c :: t) = false := by
  cases tok with
  | nil => exact absurd htok (by decide)
  | cons d tr =>
    have hd : d = '.' := htok
    subst hd
    unfold tokenHere dropTokCi
    rw [if_neg hc]

theorem anonOpenerMatches_false_of_shape (tok : List Char) (ws run rest : List Char)
    (htok : tok.headD ' ' = '.')
    (hws : ∀ c ∈ ws, isSpaceChar c = true)
    (hrun : ∀ c ∈ run, c = '+' ∨ c = '-') (hne : run ≠ []) :
    anonOpenerMatches tok ((ws ++ (run ++ rest)).map toLowerChar) = false := by
  cases hr : run with
  | nil => exact absurd hr hne
  | cons c0 t0 =>
    have hc0 := pm_char_shape c0 (hrun c0 (by rw [hr]; exact List.mem_cons_self c0 t0))
    unfold anonOpenerMatches
    rw [List.map_append]
    rw [dropWhile_append_all isSpaceChar (ws.map toLowerChar)
      (((c0 :: t0) ++ rest).map toLowerChar) ?hws2 ?hh2]
    case hws2 =>
      intro c hc
      obtain ⟨c1, hc1, hc1e⟩ := List.mem_map.mp hc
      rw [← hc1e, (space_char_shape c1 (hws c1 hc1)).2]
      exact hws c1 hc1
    case hh2 =>
      show isSpaceChar (toLowerChar c0) = false
      rw [hc0.2.2.2.2.1]
      exact hc0.2.2.2.1
    show tokenHere tok (toLowerChar c0 :: (t0 ++ rest).map toLowerChar) = false
    refine tokenHere_dot_false tok (toLowerChar c0) _ htok ?_
    rw [hc0.2.2.2.2.1]
    exact hc0.2.2.2.2.2

theorem foldl_id_of {α β : Type} (f : β → α → β) (l : List α) (init : β)
    (h : ∀ b, ∀ a ∈ l, f b a = b) : l.foldl f init = init := by
  induction l generalizing init with
  | nil => rfl
  | cons a t ih =>
    show List.foldl f (f init a) t = init
    rw [h init a (by simp)]
    exact ih init (fun b x hx => h b x (by simp [hx]))

theorem closersFold_id (cs : Bool) (lines : List (List Char)) (i : Nat)
    (ll : List Char) (st : ParseState)
    (hnc : ∀ pr ∈ SCOPE_OPENERS, closerMatches pr.2.data ll = false) :
    SCOPE_OPENERS.foldl (closersStep cs lines i ll) (st, false) = (st, false) :=
  foldl_id_of _ SCOPE_OPENERS (st, false) (fun b pr hpr => by
    unfold closersStep
    rw [if_neg (by simp [hnc pr hpr])])

theorem openersStep_id (uri : String) (cs : Bool) (lines : List (List Char)) (i : Nat)
    (line ll : List Char) (st : ParseState) (pr : String × String)
    (h1 : namedOpenerMatch pr.1.data line = none)
    (h2 : anonOpenerMatches pr.1.data ll = false) :
    openersStep uri cs lines i line ll st pr = st := by
  unfold openersStep
  dsimp only
  rw [h1]
  dsimp only
  rw [if_neg (show ¬(anonOpenerMatches pr.1.data ll = true) from by simp [h2])]

theorem openersFold_id (uri : String) (cs : Bool) (lines : List (List Char)) (i : Nat)
    (line ll : List Char) (st : ParseState)
    (h1 : ∀ pr ∈ SCOPE_OPENERS, namedOpenerMatch pr.1.data line = none)
    (h2 : ∀ pr ∈ SCOPE_OPENERS, anonOpenerMatches pr.1.data ll = false) :
    SCOPE_OPENERS.foldl (openersStep uri cs lines i line ll) st = st :=
  foldl_id_of _ SCOPE_OPENERS st (fun b pr hpr =>
    openersStep_id uri cs lines i line ll b pr (h1 pr hpr) (h2 pr hpr))

theorem SCOPE_OPENERS_heads : ∀ pr ∈ SCOPE_OPENERS, pr.1.data.headD ' ' = '.' := by
  decide
theorem anonLabelMatch_of_shape (ws run rest : List Char)
    (hws : ∀ c ∈ ws, isSpaceChar c = true)
    (hrun : ∀ c ∈ run, c = '+' ∨ c = '-') (hne : run ≠ [])
    (hrest : anonRestOk rest = true) :
    anonLabelMatch (ws ++ (run ++ rest)) = some (ws.length, run) := by
  cases hr : run with
  | nil => exact absurd hr hne
  | cons c0 t0 =>
    have hc0 := pm_char_shape c0 (hrun c0 (by rw [hr]; exact List.mem_cons_self c0 t0))
    simp only [anonLabelMatch]
    rw [takeWhile_append_all isSpaceChar ws ((c0 :: t0) ++ rest) hws hc0.2.2.2.1]
    rw [List.drop_left]
    rw [takeWhile_append_all (fun c => decide (c = '+') || decide (c = '-'))
      (c0 :: t0) rest ?hpm (anonRest_head_not_pm rest hrest)]
    case hpm =>
      intro c hc
      rcases hrun c (by rw [hr]; exact hc) with h | h <;> simp [h]
    rw [List.drop_left]
    rw [if_neg (show ¬((c0 :: t0).length = 0) from by simp)]
    rw [if_pos hrest]

/-- The anonymous-label definition pushed for the `j`-th symbol of a uniform
run of `ch` (the source's pushed object, with the scope context abstracted). -/
def anonLabelAt (uri : String) (i wsLen : Nat) (sp ls : Option String) (ch : Char)
    (j : Nat) : LabelDefinition :=
  { name := ⟨[ch]⟩, originalName := ⟨List.replicate (j+1) ch⟩, uri := uri,
    range := rangeAt i (wsLen + j) (wsLen + j + 1), scopePath := sp, localScope := ls,
    isLocal := true, isAnonymous := true, anonymousCount := some (j+1) }

theorem anonPhase_uniform_labels (uri : String) (cs : Bool) (i : Nat)
    (ws run rest : List Char) (k : Nat) (ch : Char) (st : ParseState)
    (hrep : run = List.replicate k ch)
    (hch : ch = '+' ∨ ch = '-') (hk : 0 < k)
    (hws : ∀ c ∈ ws, isSpaceChar c = true) (hrest : anonRestOk rest = true) :
    (anonPhase uri cs i (ws ++ (run ++ rest)) st).labels =
      st.labels ++ (List.range k).map
        (anonLabelAt uri i ws.length (getCurrentScopePath st.scopeStack)
          st.currentLocalScope ch) := by
  subst hrep
  have hrun : ∀ c ∈ List.replicate k ch, c = '+' ∨ c = '-' := by
    intro c hc
    rw [List.eq_of_mem_replicate hc]
    exact hch
  have hne : List.replicate k ch ≠ [] := by
    intro he
    have : k = 0 := by simpa using he
    omega
  unfold anonPhase
  rw [anonLabelMatch_of_shape ws (List.replicate k ch) rest hws hrun hne hrest]
  dsimp only
  have hhead : (List.replicate k ch).headD '+' = ch := by
    cases k with
    | zero => exact absurd hk (Nat.lt_irrefl 0)
    | succ m => rfl
  have hall : ((List.replicate k ch).all
      (fun c => decide (c = (List.replicate k ch).headD '+'))) = true := by
    rw [hhead, List.all_eq_true]
    intro c hc
    rw [List.eq_of_mem_replicate hc]
    simp
  rw [if_pos hall]
  show st.labels ++ _ = st.labels ++ _
  congr 1
  rw [List.length_replicate]
  refine List.map_congr_left ?_
  intro j hj
  rw [List.mem_range] at hj
  rw [hhead]
  rw [show (List.replicate k ch).take (j+1) = List.replicate (j+1) ch from by
    rw [List.take_replicate]
    congr 1
    omega]
  rfl

theorem anonPhase_mixed_labels (uri : String) (cs : Bool) (i : Nat)
    (ws run rest : List Char) (st : ParseState)
    (hws : ∀ c ∈ ws, isSpaceChar c = true)
    (hrun : ∀ c ∈ run, c = '+' ∨ c = '-') (hne : run ≠ [])
    (hrest : anonRestOk rest = true)
    (hmix : run.all (fun c => decide (c = run.headD '+')) = false) :
    (anonPhase uri cs i (ws ++ (run ++ rest)) st).labels = st.labels := by
  have hhead := head_alpha_false ws run rest hws hrun hne
  unfold anonPhase
  rw [anonLabelMatch_of_shape ws run rest hws hrun hne hrest]
  dsimp only
  rw [if_neg (show ¬((run.all fun c => decide (c = run.headD '+')) = true) from by
    intro hX
    rw [hmix] at hX
    exact Bool.noConfusion hX)]
  unfold tailPhase
  rw [dataLabelMatch_none_of_head _ hhead]
  dsimp only
  rw [macroLabelMatch_none_of_head _ hhead]
  dsimp only
  rw [constAssignMatch_none_of_shape ws run rest hws hrun hne]

/-- Under the anonymous-line shape with no closer token on the line, one
loop iteration reduces to the anonymous-label branch applied after the
(label-preserving) include and record phases. -/
theorem processLine_anon_line (uri : String) (cs : Bool) (r : String → Option String)
    (lines : List (List Char)) (st : ParseState) (i : Nat) (ws run rest : List Char)
    (hws : ∀ c ∈ ws, isSpaceChar c = true)
    (hrun : ∀ c ∈ run, c = '+' ∨ c = '-') (hne : run ≠ [])
    (hnc : ∀ pr ∈ SCOPE_OPENERS,
      closerMatches pr.2.data ((ws ++ (run ++ rest)).map toLowerChar) = false) :
    processLine uri cs r lines st i (ws ++ (run ++ rest)) =
      anonPhase uri cs i (ws ++ (run ++ rest))
        (includePhase r (ws ++ (run ++ rest)) (recordScope i st)) := by
  have hhead := head_alpha_false ws run rest hws hrun hne
  unfold processLine
  try dsimp only
  rw [if_neg (show ¬(isBlankOrComment (ws ++ (run ++ rest)) = true) from by
    simp [isBlankOrComment_false_of_shape ws run rest hws hrun hne])]
  rw [closersFold_id cs lines i _ _ hnc]
  try dsimp only
  rw [if_neg (show ¬((false : Bool) = true) from by decide)]
  try dsimp only
  rw [openersFold_id uri cs lines i _ _ _
    (fun pr _ => namedOpenerMatch_none_of_head pr.1.data _ hhead)
    (fun pr hpr => anonOpenerMatches_false_of_shape pr.1.data ws run rest
      (SCOPE_OPENERS_heads pr hpr) hws hrun hne)]
  unfold labelPhase
  rw [codeLabelMatch_none_of_head _ hhead]
  try dsimp only
  rw [codeLabelOpcodeMatch_none_of_head _ hhead]
  try dsimp only
  unfold localPhase
  rw [localSymbolMatch_none_of_shape ws run rest hws hrun hne]

/-- The labels the final index attributes to line `i` are exactly those the
loop appended while processing line `i`. -/
theorem labelsOnLine_eq_tail (uri text : String) (cs : Bool)
    (r : String → Option String) (i : Nat) (tail : List LabelDefinition)
    (htail : (stateUpTo uri cs r (splitLines text.data) (i+1)).labels
        = (stateUpTo uri cs r (splitLines text.data) i).labels ++ tail)
    (hline : ∀ l ∈ tail, l.range.startPos.line = i) :
    labelsOnLine (parseDocument uri text cs r) i = tail := by
  obtain ⟨t2, ht2, hq2⟩ := (foldLines_evolve uri cs r (splitLines text.data)
    ((splitLines text.data).drop (i+1)) (i+1)
    (stateUpTo uri cs r (splitLines text.data) (i+1))).1
  obtain ⟨t0, ht0, hq0⟩ := (foldLines_evolve uri cs r (splitLines text.data)
    ((splitLines text.data).take i) 0 initState).1
  show ((parseStateOf uri text cs r).labels).filter
    (fun l => l.range.startPos.line = i) = tail
  rw [parseStateOf_eq_drop uri text cs r i]
  rw [ht2, htail, List.filter_append, List.filter_append]
  have h0 : (stateUpTo uri cs r (splitLines text.data) i).labels.filter
      (fun l => decide (l.range.startPos.line = i)) = [] := by
    rw [List.filter_eq_nil_iff]
    intro l hl
    have hl2 : l ∈ initState.labels ++ t0 := ht0 ▸ hl
    rcases List.mem_append.mp hl2 with h | h
    · exact absurd h (List.not_mem_nil l)
    · obtain ⟨_, _, hhi⟩ := hq0 l h
      have hlen : ((splitLines text.data).take i).length ≤ i := by
        rw [List.length_take]
        omega
      rw [decide_eq_true_eq]
      omega
  have h1 : tail.filter (fun l => decide (l.range.startPos.line = i)) = tail := by
    rw [List.filter_eq_self]
    intro l hl
    exact decide_eq_true (hline l hl)
  have h2 : t2.filter (fun l => decide (l.range.startPos.line = i)) = [] := by
    rw [List.filter_eq_nil_iff]
    intro l hl
    obtain ⟨_, hlo, _⟩ := hq2 l hl
    rw [decide_eq_true_eq]
    omega
  rw [h0, h1, h2, List.nil_append, List.append_nil]
/-- C4: the claim as stated is wrong: the line `+ ; .pend` of the document
`"s .proc\n+ ; .pend"` begins with a run of one `+` followed by whitespace
and a comment, so the claim promises one anonymous-label definition for it;
but the scope-closing loop fires on the `.pend` token inside the comment
(the closer test sees the whole lowercased line) and `continue`s past label
detection, so the line records no definition at all — while the same line
with a harmless comment does record one. -/
theorem c4_anonymous_labels_counterexample :
    labelsOnLine (parseDocument "file:///c4" "s .proc\n+ ; .pend" true
      (fun _ => none)) 1 = [] ∧
    ¬(labelsOnLine (parseDocument "file:///c4" "s .proc\n+ ; nop" true
      (fun _ => none)) 1 = []) := by decide

/-- C4 (amended): for every line of the shape `whitespace, run of
`+`/`-` symbols, valid trailing context` that does not contain any primary
scope-closer token, a uniform run of `k` identical symbols `ch` makes
`parseDocument` record exactly the `k` anonymous-label definitions
`anonLabelAt uri i ws.length sp ls ch j` for `j < k` (the `j`-th carrying
ordinal `anonymousCount = j+1`), and a mixed run records no definition for
the line at all. -/
theorem c4_anonymous_labels (uri text : String) (cs : Bool)
    (r : String → Option String) (i : Nat) (ws run rest : List Char)
    (hi : i < (splitLines text.data).length)
    (hline : (splitLines text.data).get ⟨i, hi⟩ = ws ++ (run ++ rest))
    (hws : ∀ c ∈ ws, isSpaceChar c = true)
    (hrun : ∀ c ∈ run, c = '+' ∨ c = '-') (hne : run ≠ [])
    (hrest : anonRestOk rest = true)
    (hnc : ∀ pr ∈ SCOPE_OPENERS,
      closerMatches pr.2.data ((ws ++ (run ++ rest)).map toLowerChar) = false) :
    (∀ ch, run = List.replicate run.length ch →
      ∃ sp ls, labelsOnLine (parseDocument uri text cs r) i =
        (List.range run.length).map (anonLabelAt uri i ws.length sp ls ch)) ∧
    (('+' ∈ run ∧ '-' ∈ run) →
      labelsOnLine (parseDocument uri text cs r) i = []) := by
  have hstep : stateUpTo uri cs r (splitLines text.data) (i+1)
      = anonPhase uri cs i (ws ++ (run ++ rest))
          (includePhase r (ws ++ (run ++ rest))
            (recordScope i (stateUpTo uri cs r (splitLines text.data) i))) := by
    rw [stateUpTo_succ uri cs r (splitLines text.data) i hi, hline]
    exact processLine_anon_line uri cs r (splitLines text.data) _ i ws run rest
      hws hrun hne hnc
  obtain ⟨il, isa, iss, ils, _⟩ := includePhase_fields r (ws ++ (run ++ rest))
    (recordScope i (stateUpTo uri cs r (splitLines text.data) i))
  obtain ⟨rl, rss, rcl, _, _⟩ := recordScope_fields i
    (stateUpTo uri cs r (splitLines text.data) i)
  constructor
  · intro ch hrep
    have hlpos : 0 < run.length := List.length_pos.mpr hne
    have hch : ch = '+' ∨ ch = '-' := hrun ch (by
      rw [hrep]
      exact List.mem_replicate.mpr ⟨by omega, rfl⟩)
    refine ⟨getCurrentScopePath
        (stateUpTo uri cs r (splitLines text.data) i).scopeStack,
      (stateUpTo uri cs r (splitLines text.data) i).currentLocalScope, ?_⟩
    refine labelsOnLine_eq_tail uri text cs r i _ ?_ ?_
    · rw [hstep]
      rw [anonPhase_uniform_labels uri cs i ws run rest run.length ch _
        hrep hch hlpos hws hrest]
      rw [il, rl, iss, rss, ils, rcl]
    · intro l hl
      obtain ⟨j, hj, hlj⟩ := List.mem_map.mp hl
      subst hlj
      rfl
  · intro hmixmem
    have hmixb : run.all (fun c => decide (c = run.headD '+')) = false := by
      cases hA : run.all (fun c => decide (c = run.headD '+')) with
      | false => rfl
      | true =>
        rw [List.all_eq_true] at hA
        have hp := hA '+' hmixmem.1
        have hm := hA '-' hmixmem.2
        rw [decide_eq_true_eq] at hp hm
        exact absurd (hp.trans hm.symm) (by decide)
    refine labelsOnLine_eq_tail uri text cs r i [] ?_ (by simp)
    rw [hstep]
    rw [anonPhase_mixed_labels uri cs i ws run rest _ hws hrun hne hrest hmixb]
    rw [il, rl, List.append_nil]

theorem c4_anonymous_labels_witness :
    ∃ sp ls, labelsOnLine (parseDocument "file:///c4w" "main\n+++\n nop" true
        (fun _ => none)) 1 =
      (List.range 3).map (anonLabelAt "file:///c4w" 1 0 sp ls '+') :=
  (c4_anonymous_labels "file:///c4w" "main\n+++\n nop" true (fun _ => none) 1
    [] (List.replicate 3 '+') [] (by decide) (by decide) (by decide) (by decide)
    (by decide) (by decide) (by decide)).1 '+' (by decide)
